import Mathlib

/-!
Verification development for the brand-map repository (src/scripts.js).

The file shallowly embeds the computational core of scripts.js:
  * `filterBrands`           — scripts.js lines 458-481 (search/region filtering)
  * `prepareRadialData`      — scripts.js lines 629-781 (flat records to tree)
  * `visibleNodeNames` and the node dimming decision
                             — scripts.js lines 1360-1412 (updateRadialView)
  * `clusterLayout`          — the d3.cluster dendrogram layout invoked at
                               scripts.js lines 864-871; the algorithm is the
                               standard d3-hierarchy cluster pass with the
                               default separation (1 for leaves sharing a
                               parent, 2 otherwise), size [360, baseRadius]

Modelling conventions:
  * JavaScript record fields that may be absent are modelled as `String`
    with the empty string standing for `undefined`; every use the script
    makes of these fields (truthiness tests, strict equality against
    nonempty literals, `|| fallback`, guarded `toLowerCase().includes`)
    treats `undefined` and the empty string identically.
  * JavaScript numbers are modelled as `Rat` (exact arithmetic).
  * The in-place `brand.nodeType = ...` writes performed by
    prepareRadialData (scripts.js lines 689 and 728) are modelled by the
    state-passing variant `prepareRadialDataS`, which returns the updated
    record list alongside the tree.
  * Node identity for the d3 separation test (`a.parent === b.parent`) is
    modelled by the path of child indices from the root.
-/

namespace BrandMap

/-- The distinguished parent entity name used by scripts.js at lines
638, 646, 648, 664-699 and 1379 (written here with an escaped quote). -/
def lorealName : String := "L\x27Oréal"

/-- Input record shape (the objects scripts.js consumes from brands.json).
Fields irrelevant to every claim (logo_url, website) are omitted; an absent
field is the empty string. `nodeType` starts out absent ("") in the data
file and is written by prepareRadialData. -/
structure Brand where
  name : String
  category : String
  region : String
  tagline : String
  description : String
  parent_brand : String
  nodeType : String
  deriving DecidableEq, Repr

/-- The two filter inputs read by scripts.js filterBrands (lines 459-460):
the raw search box text and the region drop-down value. -/
structure FilterState where
  search : String
  region : String
  deriving DecidableEq, Repr

/-- Lower-cased character sequence of a string; models
`str.toLowerCase()` viewed as a character list. -/
def lowChars (s : String) : List Char := s.data.map Char.toLower

/-- `isSub needle hay` models JavaScript `hay.includes(needle)`:
`needle` occurs as a contiguous subsequence of `hay`. -/
def isSub (needle hay : List Char) : Bool :=
  hay.tails.any (fun t => needle.isPrefixOf t)

/-- The per-record predicate of scripts.js filterBrands (lines 462-472):
`matchesSearch && matchesRegion`, where the search value is the lower-cased
input and each text field is consulted only when truthy. -/
def matchesFilterB (fs : FilterState) (b : Brand) : Bool :=
  let searchValue := lowChars fs.search
  let matchesSearch :=
    searchValue.isEmpty ||
      (b.name != "" && isSub searchValue (lowChars b.name)) ||
      (b.description != "" && isSub searchValue (lowChars b.description)) ||
      (b.tagline != "" && isSub searchValue (lowChars b.tagline))
  let matchesRegion := fs.region == "all" || b.region == fs.region
  matchesSearch && matchesRegion

/-- scripts.js filterBrands (lines 458-473): the filtered brand list. -/
def filterBrands (bs : List Brand) (fs : FilterState) : List Brand :=
  bs.filter (matchesFilterB fs)

/-- The spec wording of the leaf match predicate (spec section 4.3): region
wildcard or exact region match, and empty search or case-insensitive
substring match on any of name/description/tagline. Used only to compare
against `matchesFilterB`. -/
def specLeafMatch (fs : FilterState) (b : Brand) : Prop :=
  (fs.region = "all" ∨ b.region = fs.region) ∧
    (fs.search = "" ∨ isSub (lowChars fs.search) (lowChars b.name) = true ∨
      isSub (lowChars fs.search) (lowChars b.description) = true ∨
      isSub (lowChars fs.search) (lowChars b.tagline) = true)

instance (fs : FilterState) (b : Brand) : Decidable (specLeafMatch fs b) := by
  unfold specLeafMatch; infer_instance

/-- Hierarchy node: name, nodeType and children, as assembled by
prepareRadialData. Only the fields the claims observe are kept. -/
inductive RTree where
  | mk (name ty : String) (children : List RTree)
  deriving Repr

def RTree.name : RTree → String
  | .mk n _ _ => n

def RTree.ty : RTree → String
  | .mk _ t _ => t

def RTree.children : RTree → List RTree
  | .mk _ _ cs => cs

/-- scripts.js line 729: `brand.category || 'Uncategorized'`. -/
def catName (b : Brand) : String :=
  if b.category = "" then "Uncategorized" else b.category

/-- A brand record pushed as a leaf node (its nodeType field having just
been set to "brand" by the enclosing loop). -/
def leafOf (b : Brand) : RTree := .mk b.name "brand" []

/-- Byte-wise (code point) comparison of character lists; stands in for the
JavaScript `localeCompare` ordering used by the sorting step (the claims
never depend on how the comparator orders two given names, only on the
sort being a fixed deterministic permutation). -/
def charsLe : List Char → List Char → Bool
  | [], _ => true
  | _ :: _, [] => false
  | a :: as, b :: bs =>
    if a.toNat < b.toNat then true
    else if b.toNat < a.toNat then false
    else charsLe as bs

/-- Child ordering of the sorting step: by name. -/
def nameLe (a b : RTree) : Prop := charsLe a.name.data b.name.data = true

instance : DecidableRel nameLe := fun a b =>
  inferInstanceAs (Decidable (charsLe a.name.data b.name.data = true))

/-- Keys of a JavaScript object populated by create-on-first-use: the
distinct keys in order of first occurrence. -/
def firstKeys (ks : List String) : List String :=
  ks.foldl (fun acc k => if k ∈ acc then acc else acc ++ [k]) []

/-- The fixed sub-category buckets under the parent entity
(scripts.js lines 664-686). -/
def lorealCats : List String := ["Fragrances", "Cosmetics", "Skincare"]

/-- scripts.js lines 688-711: bucket the entity-parented brands into the
three fixed sub-categories (records with any other category are warned
about and skipped) and keep only the populated buckets. -/
def lorealSubNodes (ls : List Brand) : List RTree :=
  (lorealCats.map
    (fun k => RTree.mk k "category" ((ls.filter (fun b => b.category == k)).map leafOf))).filter
    (fun n => !n.children.isEmpty)

/-- scripts.js lines 725-759: group records by category (create-on-first-use
buckets keyed by `category || 'Uncategorized'`) and turn each bucket into a
category node holding its brands as leaves. -/
def catNodes (ds : List Brand) : List RTree :=
  (firstKeys (ds.map catName)).map
    (fun k => RTree.mk k "category" ((ds.filter (fun b => catName b == k)).map leafOf))

/-- scripts.js line 638: `allBrands.find(brand => brand.name === "...")`. -/
def entityRecord (bs : List Brand) : Option Brand :=
  bs.find? (fun b => b.name == lorealName)

/-- scripts.js lines 629-759 before the sorting step: the root node with the
(optional) parent entity subtree and the per-category subtrees.  The
record partition mirrors lines 645-653: when the entity record exists,
every record named like it is skipped, entity-parented records go to the
entity buckets and the rest to the top-level categories; when it does not
exist, entity-parented records are appended to the direct list (line 721)
and everything is grouped by category. The entity node is attached only
when it has at least one child (line 714). -/
def prepareCore (bs : List Brand) : RTree :=
  match entityRecord bs with
  | some _ =>
    let lorealBs := bs.filter (fun b => b.name != lorealName && b.parent_brand == lorealName)
    let direct := bs.filter (fun b => b.name != lorealName && b.parent_brand != lorealName)
    let lp := RTree.mk lorealName "loreal_parent" (lorealSubNodes lorealBs)
    RTree.mk "Nestlé" "root" ((if lp.children.isEmpty then [] else [lp]) ++ catNodes direct)
  | none =>
    let direct := bs.filter (fun b => b.parent_brand != lorealName)
      ++ bs.filter (fun b => b.parent_brand == lorealName)
    RTree.mk "Nestlé" "root" (catNodes direct)

mutual

/-- scripts.js lines 761-777: sort the children of every node alphabetically
by name (the code sorts the root children, each child list and the entity
grand-children; since the tree is at most that deep this equals a full
recursive sort). -/
def sortDeep : RTree → RTree
  | .mk n t cs => .mk n t (List.insertionSort nameLe (sortDeepL cs))

def sortDeepL : List RTree → List RTree
  | [] => []
  | c :: cs => sortDeep c :: sortDeepL cs

end

/-- scripts.js prepareRadialData (lines 629-781), result value only. -/
def prepareRadialData (bs : List Brand) : RTree :=
  sortDeep (prepareCore bs)

/-- Effect of prepareRadialData on one stored record: records named like
the entity (when the entity record exists) are only read; every other
record has its nodeType field overwritten with "brand"
(scripts.js lines 689 and 728). -/
def brandAfterPrepare (hasEntity : Bool) (b : Brand) : Brand :=
  if hasEntity && b.name == lorealName then b else { b with nodeType := "brand" }

/-- State-passing view of prepareRadialData: the built tree together with
the brand list as it stands after the call (the in-place nodeType writes
applied). -/
def prepareRadialDataS (bs : List Brand) : RTree × List Brand :=
  (prepareRadialData bs, bs.map (brandAfterPrepare (entityRecord bs).isSome))

/-- Names contributed to the visible set by one filtered brand
(scripts.js lines 1389-1399): its name, and its parent_brand and category
when truthy — all only when the name itself is truthy. -/
def visContrib (b : Brand) : List String :=
  if b.name = "" then []
  else [b.name]
    ++ (if b.parent_brand = "" then [] else [b.parent_brand])
    ++ (if b.category = "" then [] else [b.category])

/-- scripts.js lines 1372-1399: the visible-name set built by
updateRadialView — the root name, the entity name when its record exists,
every truthy category of the full list, and the contributions of every
filtered brand. Modelled as a list with membership semantics (the code
uses a JS Set). -/
def visibleNodeNames (allB filtered : List Brand) : List String :=
  ["Nestlé"]
  ++ (match allB.find? (fun b => b.name == lorealName) with
      | some lp => [lp.name]
      | none => [])
  ++ ((allB.map (·.category)).filter (fun c => c != ""))
  ++ (filtered.map visContrib).flatten

/-- scripts.js lines 1402-1412: a node is NOT dimmed (classed "filtered")
when its nodeType is root, category or loreal_parent, or when its name is
in the visible-name set. -/
def nodeShownNT (vis : List String) (nm ty : String) : Bool :=
  if ty == "root" then true
  else if ty == "category" then true
  else if ty == "loreal_parent" then true
  else vis.contains nm

/-- The full filter-evaluation pipeline on node (name, nodeType) pairs:
filterBrands feeding updateRadialView (scripts.js lines 458-481 and
1360-1412). -/
def nodeShown (allB : List Brand) (fs : FilterState) (nm ty : String) : Bool :=
  nodeShownNT (visibleNodeNames allB (filterBrands allB fs)) nm ty

mutual

/-- All (name, nodeType) pairs of a tree, depth first. -/
def nodesNT : RTree → List (String × String)
  | .mk n t cs => (n, t) :: nodesNTL cs

def nodesNTL : List RTree → List (String × String)
  | [] => []
  | c :: cs => nodesNT c ++ nodesNTL cs

end

mutual

/-- Root-to-leaf name paths of a tree, depth first, the accumulator holding
the names of the ancestors already passed. -/
def leafPathsFrom (pre : List String) : RTree → List (List String)
  | .mk n _ [] => [pre ++ [n]]
  | .mk n _ (c :: cs) => leafPathsFromL (pre ++ [n]) (c :: cs)

def leafPathsFromL (pre : List String) : List RTree → List (List String)
  | [] => []
  | c :: cs => leafPathsFrom pre c ++ leafPathsFromL pre cs

end

/-- Names of the brand-typed pairs of a (name, nodeType) list. -/
def brandsOfNT (l : List (String × String)) : List String :=
  (l.filter (fun p => p.2 == "brand")).map Prod.fst

/-- Names of the brand-type nodes of a tree (all of which are leaves). -/
def brandLeafNames (t : RTree) : List String :=
  brandsOfNT (nodesNT t)

/-- The records that end up as brand leaves: when the entity record exists,
records not named like it whose parent_brand is either not the entity or
whose category is one of the three known buckets; otherwise every record. -/
def acceptedRecords (bs : List Brand) : List Brand :=
  if (entityRecord bs).isSome then
    bs.filter (fun b =>
      b.name != lorealName && (b.parent_brand != lorealName || lorealCats.contains b.category))
  else bs

/-- The records scripts.js line 697 logs a warning for (entity-parented,
category outside the known buckets) — these are dropped from the tree. -/
def warnedRecords (bs : List Brand) : List Brand :=
  if (entityRecord bs).isSome then
    bs.filter (fun b =>
      b.name != lorealName && b.parent_brand == lorealName && !lorealCats.contains b.category)
  else []

/-! ## The d3.cluster layout (invoked at scripts.js lines 864-871) -/

/-- First-walk annotated node: raw x (leaf order position), raw y (height
above the deepest leaf), children. -/
inductive Raw where
  | mk (name ty : String) (x : ℚ) (y : ℕ) (children : List Raw)
  deriving Repr

def Raw.x : Raw → ℚ
  | .mk _ _ x _ _ => x

def Raw.y : Raw → ℕ
  | .mk _ _ _ y _ => y

def Raw.children : Raw → List Raw
  | .mk _ _ _ _ cs => cs

/-- Walk state of the d3 cluster first pass: the parent identity (child
index path) of the previous leaf, and the running x. -/
structure WSt where
  prev : Option (List ℕ)
  x : ℚ
  deriving DecidableEq, Repr

/-- d3 default separation: 1 when the two leaves share a parent node,
2 otherwise; parent identity is the child index path. -/
def sepOf (p q : List ℕ) : ℚ := if p = q then 1 else 2

/-- Leaf x in the first pass: 0 for the very first leaf, otherwise the
previous x advanced by the separation. -/
def stepLeaf (pp : List ℕ) (st : WSt) : ℚ :=
  match st.prev with
  | none => 0
  | some q => st.x + sepOf pp q

/-- Mean of the children x values (d3 meanX). -/
def meanX (rs : List Raw) : ℚ := (rs.map Raw.x).sum / (rs.length : ℚ)

/-- d3 maxY: one more than the largest child y. -/
def maxY (rs : List Raw) : ℕ := 1 + rs.foldl (fun acc r => max acc r.y) 0

mutual

/-- d3 cluster first pass (post-order): leaves receive consecutive raw x
positions advanced by the separation, internal nodes the mean x and
max-plus-one y of their children. `pp` is the parent index path, `i` the
index of this node among its siblings. -/
def firstWalk : RTree → List ℕ → ℕ → WSt → Raw × WSt
  | .mk n t [], pp, _, st =>
    let x := stepLeaf pp st
    (.mk n t x 0 [], ⟨some pp, x⟩)
  | .mk n t (c :: cs), pp, i, st =>
    let rs2 := firstWalkL (c :: cs) (pp ++ [i]) 0 st
    (.mk n t (meanX rs2.1) (maxY rs2.1) rs2.1, rs2.2)

def firstWalkL : List RTree → List ℕ → ℕ → WSt → List Raw × WSt
  | [], _, _, st => ([], st)
  | t :: ts, pp, i, st =>
    let r1 := firstWalk t pp i st
    let rs2 := firstWalkL ts pp (i + 1) r1.2
    (r1.1 :: rs2.1, rs2.2)

end

mutual

/-- The (raw x, parent index path) pairs of the leaves of a first-pass tree
in depth-first order; d3 leafLeft and leafRight are its first and last
entry. -/
def leavesPx : Raw → List ℕ → ℕ → List (ℚ × List ℕ)
  | .mk _ _ x _ [], pp, _ => [(x, pp)]
  | .mk _ _ _ _ (c :: cs), pp, i => leavesPxL (c :: cs) (pp ++ [i]) 0

def leavesPxL : List Raw → List ℕ → ℕ → List (ℚ × List ℕ)
  | [], _, _ => []
  | c :: cs, pp, i => leavesPx c pp i ++ leavesPxL cs pp (i + 1)

end

/-- Positioned node: angle in degrees and radius, as produced by the d3
cluster second pass with size [360, R]. -/
inductive PT where
  | mk (name ty : String) (angle radius : ℚ) (children : List PT)
  deriving Repr

def PT.angle : PT → ℚ
  | .mk _ _ a _ _ => a

def PT.radius : PT → ℚ
  | .mk _ _ _ r _ => r

def PT.children : PT → List PT
  | .mk _ _ _ _ cs => cs

mutual

/-- d3 cluster second pass: normalize x into an angle over [0, 360] and y
into a radius, `h` being the root height (radius 0 throughout when 0). -/
def normalize (x0 x1 : ℚ) (h : ℕ) (R : ℚ) : Raw → PT
  | .mk n t x y cs =>
    .mk n t ((x - x0) / (x1 - x0) * 360)
      ((1 - (if h = 0 then 1 else (y : ℚ) / (h : ℚ))) * R)
      (normalizeL x0 x1 h R cs)

def normalizeL (x0 x1 : ℚ) (h : ℕ) (R : ℚ) : List Raw → List PT
  | [] => []
  | c :: cs => normalize x0 x1 h R c :: normalizeL x0 x1 h R cs

end

/-- The full d3.cluster().size([360, R]) layout of a hierarchy, as run by
initializeRadialView (scripts.js lines 864-871). -/
def clusterLayout (t : RTree) (R : ℚ) : PT :=
  let r := (firstWalk t [] 0 ⟨none, 0⟩).1
  let lv := (leavesPx r [] 0).headD (0, [])
  let rv := (leavesPx r [] 0).getLastD (0, [])
  let e := sepOf lv.2 rv.2
  let x0 := lv.1 - e / 2
  let x1 := rv.1 + e / 2
  normalize x0 x1 r.y R r

mutual

/-- Angles of the leaves of a positioned tree, depth first. -/
def leafAngles : PT → List ℚ
  | .mk _ _ a _ [] => [a]
  | .mk _ _ _ _ (c :: cs) => leafAnglesL (c :: cs)

def leafAnglesL : List PT → List ℚ
  | [] => []
  | c :: cs => leafAngles c ++ leafAnglesL cs

end

mutual

/-- Parent index paths of the leaves of a hierarchy, depth first. -/
def leafPar : RTree → List ℕ → ℕ → List (List ℕ)
  | .mk _ _ [], pp, _ => [pp]
  | .mk _ _ (c :: cs), pp, i => leafParL (c :: cs) (pp ++ [i]) 0

def leafParL : List RTree → List ℕ → ℕ → List (List ℕ)
  | [], _, _ => []
  | t :: ts, pp, i => leafPar t pp i ++ leafParL ts pp (i + 1)

end

/-- Parent index paths of the leaves of a tree, root call. -/
def leafParents (t : RTree) : List (List ℕ) := leafPar t [] 0

/-- Separations between consecutive leaves. -/
def sepListOf (t : RTree) : List ℚ :=
  List.zipWith sepOf (leafParents t) (leafParents t).tail

/-- Separation between the leftmost and rightmost leaf (the half of it is
padded on each side of the angular range). -/
def borderSep (t : RTree) : ℚ :=
  sepOf ((leafParents t).headD []) ((leafParents t).getLastD [])

/-- The raw angular span: the sum of consecutive separations plus the
border separation. -/
def spanOf (t : RTree) : ℚ := (sepListOf t).sum + borderSep t

/-- Consecutive differences of a list. -/
def diffs (xs : List ℚ) : List ℚ := List.zipWith (fun a b => b - a) xs xs.tail

/-- Reference scan: the (raw x, parent path) pairs the first pass hands out
for a given leaf parent-path sequence, with the final walk state. -/
def scanPairs : List (List ℕ) → WSt → List (ℚ × List ℕ) × WSt
  | [], st => ([], st)
  | p :: ps, st =>
    let x := stepLeaf p st
    let rest := scanPairs ps ⟨some p, x⟩
    ((x, p) :: rest.1, rest.2)

/-! ## Theorems -/

theorem lowChars_nil_iff (s : String) : lowChars s = [] ↔ s = "" := by
  unfold lowChars
  constructor
  · intro h
    have hd : s.data = [] := by simpa using h
    cases s with
    | mk d => simp_all
  · intro h
    subst h
    rfl

theorem isSub_nil (q : List Char) (hq : q ≠ []) : isSub q [] = false := by
  unfold isSub
  cases q with
  | nil => exact absurd rfl hq
  | cons a as => simp [List.tails, List.isPrefixOf]

theorem truthy_guard_eq (q : List Char) (hq : q ≠ []) (s : String) :
    (s != "" && isSub q (lowChars s)) = isSub q (lowChars s) := by
  by_cases h : s = ""
  · subst h
    have : lowChars "" = [] := rfl
    rw [this, isSub_nil q hq]
    simp
  · simp [h]

theorem matchesFilterB_iff_spec (fs : FilterState) (b : Brand) :
    matchesFilterB fs b = true ↔ specLeafMatch fs b := by
  obtain ⟨se, re⟩ := fs
  unfold matchesFilterB specLeafMatch
  by_cases hs : se = ""
  · subst hs
    simp [show lowChars "" = [] from rfl, and_comm]
  · have hq : lowChars se ≠ [] := fun h => hs ((lowChars_nil_iff se).mp h)
    have hne : (lowChars se).isEmpty = false := by
      cases h : lowChars se with
      | nil => exact absurd h hq
      | cons a as => rfl
    simp only [hne, truthy_guard_eq _ hq, Bool.false_or, Bool.and_eq_true, Bool.or_eq_true,
      beq_iff_eq]
    simp [hs, and_comm, or_assoc]

/-- C2 leaf match predicate: a record is in the filtered set exactly when it
is an input record for which (region is the wildcard or matches exactly)
and (the search text is empty or its lower-cased form occurs in the
lower-cased name, description or tagline). -/
theorem leafMatch_characterization (bs : List Brand) (fs : FilterState) (b : Brand) :
    b ∈ filterBrands bs fs ↔ b ∈ bs ∧ specLeafMatch fs b := by
  unfold filterBrands
  rw [List.mem_filter, matchesFilterB_iff_spec]

theorem mem_visibleNodeNames_mono (bs f1 f2 : List Brand) (nm : String)
    (hsub : ∀ r ∈ f1, r ∈ f2) (hm : nm ∈ visibleNodeNames bs f1) :
    nm ∈ visibleNodeNames bs f2 := by
  unfold visibleNodeNames at hm ⊢
  simp only [List.mem_append] at hm ⊢
  rcases hm with ((h | h) | h) | h
  · exact Or.inl (Or.inl (Or.inl h))
  · exact Or.inl (Or.inl (Or.inr h))
  · exact Or.inl (Or.inr h)
  · refine Or.inr ?_
    rcases List.mem_flatten.mp h with ⟨l, hl, hnm⟩
    rcases List.mem_map.mp hl with ⟨r, hr, rfl⟩
    exact List.mem_flatten.mpr ⟨visContrib r, List.mem_map.mpr ⟨r, hsub r hr, rfl⟩, hnm⟩

/-- C7 filter monotonicity: when every record matched by filter state A is
also matched by filter state B, every node shown under A is shown under B. -/
theorem filter_monotonicity (bs : List Brand) (fsA fsB : FilterState)
    (h : ∀ r ∈ filterBrands bs fsA, r ∈ filterBrands bs fsB) (nm ty : String)
    (hA : nodeShown bs fsA nm ty = true) : nodeShown bs fsB nm ty = true := by
  unfold nodeShown nodeShownNT at hA ⊢
  by_cases h1 : (ty == "root") = true
  · simp [h1]
  · by_cases h2 : (ty == "category") = true
    · simp [h1, h2]
    · by_cases h3 : (ty == "loreal_parent") = true
      · simp [h1, h2, h3]
      · simp only [h1, h2, h3, Bool.false_eq_true, if_false, List.contains,
          List.elem_iff] at hA ⊢
        exact mem_visibleNodeNames_mono bs _ _ nm h hA

/-- Witness for C7 at a concrete input: one brand, a search that matches
nothing versus the empty search. -/
theorem filter_monotonicity_witness :
    (∀ r ∈ filterBrands [⟨"Aqua", "Water", "EU", "", "", "", ""⟩] ⟨"zzz", "all"⟩,
        r ∈ filterBrands [⟨"Aqua", "Water", "EU", "", "", "", ""⟩] ⟨"", "all"⟩) ∧
      (nodeShown [⟨"Aqua", "Water", "EU", "", "", "", ""⟩] ⟨"zzz", "all"⟩ "Aqua" "brand" = true →
        nodeShown [⟨"Aqua", "Water", "EU", "", "", "", ""⟩] ⟨"", "all"⟩ "Aqua" "brand" = true) :=
  ⟨by decide, filter_monotonicity _ _ _ (by decide) "Aqua" "brand"⟩

/-- C1 counterexample. -/
theorem conservation_counterexample :
    brandLeafNames (prepareRadialData [⟨lorealName, "Cosmetics", "Global", "", "", "", ""⟩]) = []
      ∧ warnedRecords [⟨lorealName, "Cosmetics", "Global", "", "", "", ""⟩] = []
      ∧ nodesNT (prepareRadialData [⟨lorealName, "Cosmetics", "Global", "", "", "", ""⟩])
          = [("Nestlé", "root")]
      ∧ ([⟨lorealName, "Cosmetics", "Global", "", "", "", ""⟩] : List Brand).length = 1 := by
  decide

/-- C3 counterexample. -/
theorem visibleSet_counterexample :
    nodesNT (prepareRadialData
        [⟨"Water", "Coffee", "EU", "", "", "", ""⟩, ⟨"X", "Water", "US", "", "", "", ""⟩])
        = [("Nestlé", "root"), ("Coffee", "category"), ("Water", "brand"),
            ("Water", "category"), ("X", "brand")]
      ∧ nodeShown [⟨"Water", "Coffee", "EU", "", "", "", ""⟩, ⟨"X", "Water", "US", "", "", "", ""⟩]
          ⟨"", "US"⟩ "Water" "brand" = true
      ∧ filterBrands [⟨"Water", "Coffee", "EU", "", "", "", ""⟩, ⟨"X", "Water", "US", "", "", "", ""⟩]
          ⟨"", "US"⟩ = [⟨"X", "Water", "US", "", "", "", ""⟩] :=
  ⟨by decide, by decide, by decide⟩

/-- C4 counterexample. -/
theorem nesting_counterexample :
    nodesNT (prepareRadialData [⟨lorealName, "Cosmetics", "Global", "", "", "", ""⟩,
        ⟨"B", "Coffee", "EU", "", "", lorealName, ""⟩]) = [("Nestlé", "root")]
      ∧ warnedRecords [⟨lorealName, "Cosmetics", "Global", "", "", "", ""⟩,
          ⟨"B", "Coffee", "EU", "", "", lorealName, ""⟩]
          = [⟨"B", "Coffee", "EU", "", "", lorealName, ""⟩] := by
  decide

/-- C5 counterexample. -/
theorem angularSpacing_counterexample :
    leafAngles (clusterLayout (prepareRadialData [⟨"A", "Water", "EU", "", "", "", ""⟩]) 100)
        = [180]
      ∧ leafAngles (clusterLayout (prepareRadialData
          [⟨"a1", "A", "EU", "", "", "", ""⟩, ⟨"a2", "A", "EU", "", "", "", ""⟩,
            ⟨"b1", "B", "EU", "", "", "", ""⟩]) 100) = [72, 144, 288] := by
  constructor
  · have h : prepareRadialData [⟨"A", "Water", "EU", "", "", "", ""⟩]
        = RTree.mk "Nestlé" "root" [RTree.mk "Water" "category" [RTree.mk "A" "brand" []]] := rfl
    rw [h]
    norm_num [clusterLayout, firstWalk, firstWalkL, leavesPx, leavesPxL, stepLeaf, sepOf,
      meanX, maxY, normalize, normalizeL, leafAngles, leafAnglesL, Raw.x, Raw.y]
  · have h : prepareRadialData [⟨"a1", "A", "EU", "", "", "", ""⟩,
        ⟨"a2", "A", "EU", "", "", "", ""⟩, ⟨"b1", "B", "EU", "", "", "", ""⟩]
        = RTree.mk "Nestlé" "root"
            [RTree.mk "A" "category" [RTree.mk "a1" "brand" [], RTree.mk "a2" "brand" []],
              RTree.mk "B" "category" [RTree.mk "b1" "brand" []]] := rfl
    rw [h]
    norm_num [clusterLayout, firstWalk, firstWalkL, leavesPx, leavesPxL, stepLeaf, sepOf,
      meanX, maxY, normalize, normalizeL, leafAngles, leafAnglesL, Raw.x, Raw.y]

/-- C8 counterexample. -/
theorem emptyLayout_counterexample :
    (clusterLayout (prepareRadialData []) 100).angle = 180
      ∧ (clusterLayout (prepareRadialData []) 100).angle ≠ 0
      ∧ (clusterLayout (prepareRadialData []) 100).radius = 0 := by
  have h : prepareRadialData [] = RTree.mk "Nestlé" "root" [] := rfl
  rw [h]
  norm_num [clusterLayout, firstWalk, firstWalkL, leavesPx, leavesPxL, stepLeaf, sepOf,
    meanX, maxY, normalize, normalizeL, PT.angle, PT.radius, Raw.y]

/-- C9 counterexample. -/
theorem purity_counterexample :
    (prepareRadialDataS [⟨"A", "Water", "EU", "", "", "", ""⟩]).2
      ≠ [⟨"A", "Water", "EU", "", "", "", ""⟩] := by
  decide

/-- C10 counterexample. -/
theorem nameKeyed_counterexample :
    nodesNT (prepareRadialData
        [⟨"Uncategorized", "Coffee", "EU", "", "", "", ""⟩, ⟨"B", "", "EU", "", "", "", ""⟩])
        = [("Nestlé", "root"), ("Coffee", "category"), ("Uncategorized", "brand"),
            ("Uncategorized", "category"), ("B", "brand")]
      ∧ nodeShown [⟨"Uncategorized", "Coffee", "EU", "", "", "", ""⟩, ⟨"B", "", "EU", "", "", "", ""⟩]
          ⟨"", "US"⟩ "Uncategorized" "category" = true
      ∧ nodeShown [⟨"Uncategorized", "Coffee", "EU", "", "", "", ""⟩, ⟨"B", "", "EU", "", "", "", ""⟩]
          ⟨"", "US"⟩ "Uncategorized" "brand" = false :=
  ⟨by decide, by decide, by decide⟩

theorem brandAfterPrepare_name (e : Bool) (b : Brand) :
    (brandAfterPrepare e b).name = b.name := by
  unfold brandAfterPrepare; split <;> rfl

theorem brandAfterPrepare_category (e : Bool) (b : Brand) :
    (brandAfterPrepare e b).category = b.category := by
  unfold brandAfterPrepare; split <;> rfl

theorem brandAfterPrepare_parent (e : Bool) (b : Brand) :
    (brandAfterPrepare e b).parent_brand = b.parent_brand := by
  unfold brandAfterPrepare; split <;> rfl

theorem brandAfterPrepare_fields (e : Bool) (b : Brand) :
    ((brandAfterPrepare e b).name, (brandAfterPrepare e b).category,
        (brandAfterPrepare e b).region, (brandAfterPrepare e b).tagline,
        (brandAfterPrepare e b).description, (brandAfterPrepare e b).parent_brand)
      = (b.name, b.category, b.region, b.tagline, b.description, b.parent_brand) := by
  unfold brandAfterPrepare; split <;> rfl

theorem map_filter_comm (f : Brand → Brand) (q p : Brand → Bool)
    (h : ∀ b, q (f b) = p b) (bs : List Brand) :
    (bs.map f).filter q = (bs.filter p).map f := by
  induction bs with
  | nil => rfl
  | cons a l ih =>
    simp only [List.map_cons, List.filter_cons, h a]
    cases p a <;> simp [ih]

theorem map_find?_comm (f : Brand → Brand) (q p : Brand → Bool)
    (h : ∀ b, q (f b) = p b) (bs : List Brand) :
    (bs.map f).find? q = (bs.find? p).map f := by
  induction bs with
  | nil => rfl
  | cons a l ih =>
    simp only [List.map_cons, List.find?_cons, h a]
    cases p a <;> simp [ih]

theorem leafOf_after (e : Bool) (b : Brand) :
    leafOf (brandAfterPrepare e b) = leafOf b := by
  unfold leafOf; rw [brandAfterPrepare_name]

theorem catName_after (e : Bool) (b : Brand) :
    catName (brandAfterPrepare e b) = catName b := by
  unfold catName; rw [brandAfterPrepare_category]

theorem catNodes_map_after (e : Bool) (ds : List Brand) :
    catNodes (ds.map (brandAfterPrepare e)) = catNodes ds := by
  unfold catNodes
  have h1 : (ds.map (brandAfterPrepare e)).map catName = ds.map catName := by
    rw [List.map_map]
    exact List.map_congr_left (fun b _ => catName_after e b)
  rw [h1]
  refine List.map_congr_left (fun k _ => ?_)
  have h2 : (ds.map (brandAfterPrepare e)).filter (fun b => catName b == k)
      = (ds.filter (fun b => catName b == k)).map (brandAfterPrepare e) :=
    map_filter_comm _ _ _ (fun b => by rw [catName_after]) ds
  rw [h2, List.map_map]
  congr 1
  exact List.map_congr_left (fun b _ => leafOf_after e b)

theorem lorealSubNodes_map_after (e : Bool) (ls : List Brand) :
    lorealSubNodes (ls.map (brandAfterPrepare e)) = lorealSubNodes ls := by
  unfold lorealSubNodes
  congr 1
  refine List.map_congr_left (fun k _ => ?_)
  have h2 : (ls.map (brandAfterPrepare e)).filter (fun b => b.category == k)
      = (ls.filter (fun b => b.category == k)).map (brandAfterPrepare e) :=
    map_filter_comm _ _ _ (fun b => by rw [brandAfterPrepare_category]) ls
  rw [h2, List.map_map]
  congr 1
  exact List.map_congr_left (fun b _ => leafOf_after e b)

theorem prepareCore_map_after (e : Bool) (bs : List Brand) :
    prepareCore (bs.map (brandAfterPrepare e)) = prepareCore bs := by
  unfold prepareCore entityRecord
  rw [map_find?_comm (brandAfterPrepare e) _ (fun b => b.name == lorealName)
    (fun b => by rw [brandAfterPrepare_name]) bs]
  cases hf : bs.find? (fun b => b.name == lorealName) with
  | none =>
    simp only [Option.map_none']
    rw [map_filter_comm (brandAfterPrepare e) _ (fun b => b.parent_brand != lorealName)
        (fun b => by rw [brandAfterPrepare_parent]) bs,
      map_filter_comm (brandAfterPrepare e) _ (fun b => b.parent_brand == lorealName)
        (fun b => by rw [brandAfterPrepare_parent]) bs,
      ← List.map_append, catNodes_map_after]
  | some v =>
    simp only [Option.map_some']
    rw [map_filter_comm (brandAfterPrepare e) _
        (fun b => b.name != lorealName && b.parent_brand == lorealName)
        (fun b => by rw [brandAfterPrepare_name, brandAfterPrepare_parent]) bs,
      map_filter_comm (brandAfterPrepare e) _
        (fun b => b.name != lorealName && b.parent_brand != lorealName)
        (fun b => by rw [brandAfterPrepare_name, brandAfterPrepare_parent]) bs,
      lorealSubNodes_map_after, catNodes_map_after]

theorem entityRecord_map_after (e : Bool) (bs : List Brand) :
    (entityRecord (bs.map (brandAfterPrepare e))).isSome = (entityRecord bs).isSome := by
  unfold entityRecord
  rw [map_find?_comm (brandAfterPrepare e) _ (fun b => b.name == lorealName)
    (fun b => by rw [brandAfterPrepare_name]) bs]
  cases bs.find? (fun b => b.name == lorealName) <;> rfl

theorem brandAfterPrepare_idem (e : Bool) (b : Brand) :
    brandAfterPrepare e (brandAfterPrepare e b) = brandAfterPrepare e b := by
  by_cases h : (e && b.name == lorealName) = true
  · have hb : brandAfterPrepare e b = b := by
      unfold brandAfterPrepare; rw [if_pos h]
    rw [hb, hb]
  · have hb : brandAfterPrepare e b = { b with nodeType := "brand" } := by
      unfold brandAfterPrepare; rw [if_neg h]
    rw [hb]
    unfold brandAfterPrepare
    rw [if_neg (by simpa using h)]

/-- C6 determinism: running the tree build on the state left behind by a
first run (the nodeType writes applied) rebuilds the identical tree, the
layout of the two trees is identical, the record state is stable, and the
filter evaluation is a pure function of its inputs. -/
theorem determinism_run_twice (bs : List Brand) (fs : FilterState) (R : ℚ) :
    (prepareRadialDataS ((prepareRadialDataS bs).2)).1 = (prepareRadialDataS bs).1
      ∧ clusterLayout ((prepareRadialDataS ((prepareRadialDataS bs).2)).1) R
          = clusterLayout ((prepareRadialDataS bs).1) R
      ∧ (prepareRadialDataS ((prepareRadialDataS bs).2)).2 = (prepareRadialDataS bs).2
      ∧ filterBrands bs fs = filterBrands bs fs := by
  have htree : (prepareRadialDataS ((prepareRadialDataS bs).2)).1 = (prepareRadialDataS bs).1 := by
    show prepareRadialData (bs.map (brandAfterPrepare (entityRecord bs).isSome))
        = prepareRadialData bs
    unfold prepareRadialData
    rw [prepareCore_map_after]
  refine ⟨htree, by rw [htree], ?_, rfl⟩
  show (bs.map (brandAfterPrepare (entityRecord bs).isSome)).map
      (brandAfterPrepare (entityRecord (bs.map (brandAfterPrepare (entityRecord bs).isSome))).isSome)
    = bs.map (brandAfterPrepare (entityRecord bs).isSome)
  rw [entityRecord_map_after, List.map_map]
  exact List.map_congr_left (fun b _ => brandAfterPrepare_idem _ b)

/-- C9 (amended): a call of the tree build leaves every field of every
input record unchanged except nodeType, on every record it leaves behind
nodeType is either freshly "brand" or (for the entity record when present)
untouched, and the filter evaluation is a pure function. -/
theorem core_frame_condition (bs : List Brand) :
    ((prepareRadialDataS bs).2).map
        (fun b => (b.name, b.category, b.region, b.tagline, b.description, b.parent_brand))
      = bs.map (fun b => (b.name, b.category, b.region, b.tagline, b.description, b.parent_brand))
    ∧ ∀ b ∈ (prepareRadialDataS bs).2,
        b.nodeType = "brand" ∨ (b.name = lorealName ∧ b ∈ bs) := by
  constructor
  · show (bs.map (brandAfterPrepare (entityRecord bs).isSome)).map _ = _
    rw [List.map_map]
    exact List.map_congr_left (fun b _ => brandAfterPrepare_fields _ b)
  · intro b hb
    rcases List.mem_map.mp hb with ⟨a, ha, rfl⟩
    unfold brandAfterPrepare
    split
    · next h =>
      right
      exact ⟨by simpa using (Bool.and_eq_true _ _).mp h |>.2, ha⟩
    · left; rfl

theorem sepOf_comm (p q : List ℕ) : sepOf p q = sepOf q p := by
  unfold sepOf
  by_cases h : p = q
  · simp [h]
  · rw [if_neg h, if_neg (fun hh => h hh.symm)]

theorem scanPairs_append (ps qs : List (List ℕ)) (st : WSt) :
    scanPairs (ps ++ qs) st
      = ((scanPairs ps st).1 ++ (scanPairs qs (scanPairs ps st).2).1,
          (scanPairs qs (scanPairs ps st).2).2) := by
  induction ps generalizing st with
  | nil => rfl
  | cons p ps ih =>
    simp only [List.cons_append, scanPairs, List.append_eq, ih]

theorem leavesPx_cons (n ty : String) (a : ℚ) (b : ℕ) (r : Raw) (rs : List Raw)
    (pp : List ℕ) (i : ℕ) :
    leavesPx (Raw.mk n ty a b (r :: rs)) pp i = leavesPxL (r :: rs) (pp ++ [i]) 0 := by
  simp [leavesPx]

mutual

theorem firstWalk_scan : ∀ (t : RTree) (pp : List ℕ) (i : ℕ) (st : WSt),
    leavesPx (firstWalk t pp i st).1 pp i = (scanPairs (leafPar t pp i) st).1
      ∧ (firstWalk t pp i st).2 = (scanPairs (leafPar t pp i) st).2
  | .mk n ty [], pp, i, st => by
    simp [firstWalk, leavesPx, leafPar, scanPairs]
  | .mk n ty (c :: cs), pp, i, st => by
    have h := firstWalkL_scan (c :: cs) (pp ++ [i]) 0 st
    simp only [firstWalk, leafPar]
    constructor
    · have hshape : (firstWalkL (c :: cs) (pp ++ [i]) 0 st).1
          = (firstWalk c (pp ++ [i]) 0 st).1
            :: (firstWalkL cs (pp ++ [i]) 1 (firstWalk c (pp ++ [i]) 0 st).2).1 := by
        simp [firstWalkL]
      rw [hshape, leavesPx_cons, ← hshape]
      exact h.1
    · exact h.2

theorem firstWalkL_scan : ∀ (ts : List RTree) (pp : List ℕ) (i : ℕ) (st : WSt),
    leavesPxL (firstWalkL ts pp i st).1 pp i = (scanPairs (leafParL ts pp i) st).1
      ∧ (firstWalkL ts pp i st).2 = (scanPairs (leafParL ts pp i) st).2
  | [], pp, i, st => by simp [firstWalkL, leavesPxL, leafParL, scanPairs]
  | t :: ts, pp, i, st => by
    have h1 := firstWalk_scan t pp i st
    have h2 := firstWalkL_scan ts pp (i + 1) (firstWalk t pp i st).2
    have hsh1 : (firstWalkL (t :: ts) pp i st).1
        = (firstWalk t pp i st).1 :: (firstWalkL ts pp (i + 1) (firstWalk t pp i st).2).1 := by
      simp [firstWalkL]
    have hsh2 : (firstWalkL (t :: ts) pp i st).2
        = (firstWalkL ts pp (i + 1) (firstWalk t pp i st).2).2 := by
      simp [firstWalkL]
    have hlp : leafParL (t :: ts) pp i = leafPar t pp i ++ leafParL ts pp (i + 1) := by
      simp [leafParL]
    rw [hsh1, hsh2, hlp, scanPairs_append]
    have hcons : leavesPxL ((firstWalk t pp i st).1
          :: (firstWalkL ts pp (i + 1) (firstWalk t pp i st).2).1) pp i
        = leavesPx (firstWalk t pp i st).1 pp i
          ++ leavesPxL (firstWalkL ts pp (i + 1) (firstWalk t pp i st).2).1 pp (i + 1) := by
      simp [leavesPxL]
    rw [hcons, h1.1, h2.1, h2.2, h1.2]
    exact ⟨rfl, rfl⟩

end

theorem scan_snd (ps : List (List ℕ)) (st : WSt) :
    ((scanPairs ps st).1).map Prod.snd = ps := by
  induction ps generalizing st with
  | nil => rfl
  | cons p ps ih => simp only [scanPairs, List.map_cons, ih]

theorem scan_length (ps : List (List ℕ)) (st : WSt) :
    (scanPairs ps st).1.length = ps.length := by
  induction ps generalizing st with
  | nil => rfl
  | cons p ps ih => simp only [scanPairs, List.length_cons, ih]

theorem scan_diffs : ∀ (ps : List (List ℕ)) (st : WSt),
    diffs (((scanPairs ps st).1).map Prod.fst) = List.zipWith sepOf ps ps.tail
  | [], _ => rfl
  | [p], _ => rfl
  | p :: p2 :: ps2, st => by
    have ih := scan_diffs (p2 :: ps2) ⟨some p, stepLeaf p st⟩
    simp only [scanPairs, List.map_cons, diffs, List.tail_cons, List.zipWith] at ih ⊢
    refine congrArg₂ List.cons ?_ ih
    show stepLeaf p2 ⟨some p, stepLeaf p st⟩ - stepLeaf p st = sepOf p p2
    unfold stepLeaf
    rw [sepOf_comm]
    ring

theorem diffs_getLast : ∀ (xs : List ℚ),
    xs.getLastD 0 = xs.headD 0 + (diffs xs).sum
  | [] => by simp [diffs]
  | [x] => by simp [diffs]
  | x :: y :: xs => by
    have ih := diffs_getLast (y :: xs)
    simp only [diffs, List.tail_cons, List.zipWith, List.sum_cons, List.headD_cons,
      List.getLastD_cons] at ih ⊢
    rw [ih]
    ring

theorem pair_getLastD (l : List (ℚ × List ℕ)) (d : ℚ × List ℕ) :
    l.getLastD d = ((l.map Prod.fst).getLastD d.1, (l.map Prod.snd).getLastD d.2) := by
  induction l generalizing d with
  | nil => rfl
  | cons a l ih =>
    simp only [List.map_cons, List.getLastD_cons, ih a]

theorem diffs_map_affine (x0 S : ℚ) : ∀ (xs : List ℚ),
    diffs (xs.map (fun x => (x - x0) / S * 360)) = (diffs xs).map (fun d => d / S * 360)
  | [] => rfl
  | [x] => rfl
  | x :: y :: xs => by
    have ih := diffs_map_affine x0 S (y :: xs)
    simp only [List.map_cons, diffs, List.tail_cons, List.zipWith] at ih ⊢
    refine congrArg₂ List.cons (by ring) ih

theorem chain_of_diffs_pos : ∀ (xs : List ℚ),
    (∀ d ∈ diffs xs, 0 < d) → List.Chain' (· < ·) xs
  | [] => fun _ => List.chain'_nil
  | [x] => fun _ => List.chain'_singleton x
  | x :: y :: xs => fun h => by
    have hd : 0 < y - x := h (y - x) (by simp [diffs, List.zipWith])
    have ht : List.Chain' (· < ·) (y :: xs) := by
      refine chain_of_diffs_pos (y :: xs) (fun d hdm => h d ?_)
      simp only [diffs, List.tail_cons, List.zipWith]
      exact List.mem_cons_of_mem _ hdm
    exact List.Chain'.cons (by linarith) ht

theorem seps_mem : ∀ (ps qs : List (List ℕ)) (s : ℚ),
    s ∈ List.zipWith sepOf ps qs → s = 1 ∨ s = 2
  | [], _, s => by simp [List.zipWith]
  | _ :: _, [], s => by simp [List.zipWith]
  | p :: ps, q :: qs, s => fun h => by
    simp only [List.zipWith, List.mem_cons] at h
    rcases h with h | h
    · unfold sepOf at h
      split at h
      · exact Or.inl h
      · exact Or.inr h
    · exact seps_mem ps qs s h

theorem leafPar_ne_nil : ∀ (t : RTree) (pp : List ℕ) (i : ℕ), leafPar t pp i ≠ []
  | .mk n ty [], pp, i => by simp [leafPar]
  | .mk n ty (c :: cs), pp, i => by
    have h := leafPar_ne_nil c (pp ++ [i]) 0
    simp only [leafPar, leafParL]
    intro hc
    exact h (List.append_eq_nil.mp hc).1

mutual

theorem normalize_leafAngles : ∀ (r : Raw) (x0 x1 : ℚ) (h : ℕ) (R : ℚ) (pp : List ℕ) (i : ℕ),
    leafAngles (normalize x0 x1 h R r)
      = ((leavesPx r pp i).map Prod.fst).map (fun x => (x - x0) / (x1 - x0) * 360)
  | .mk n ty x y [], x0, x1, h, R, pp, i => by
    simp [normalize, normalizeL, leafAngles, leavesPx]
  | .mk n ty x y (c :: cs), x0, x1, h, R, pp, i => by
    have hn : normalize x0 x1 h R (Raw.mk n ty x y (c :: cs))
        = PT.mk n ty ((x - x0) / (x1 - x0) * 360)
            ((1 - (if h = 0 then 1 else (y : ℚ) / (h : ℚ))) * R)
            (normalize x0 x1 h R c :: normalizeL x0 x1 h R cs) := by
      simp [normalize, normalizeL]
    have ha : leafAngles (PT.mk n ty ((x - x0) / (x1 - x0) * 360)
          ((1 - (if h = 0 then 1 else (y : ℚ) / (h : ℚ))) * R)
          (normalize x0 x1 h R c :: normalizeL x0 x1 h R cs))
        = leafAngles (normalize x0 x1 h R c) ++ leafAnglesL (normalizeL x0 x1 h R cs) := by
      simp [leafAngles, leafAnglesL]
    have hl : leavesPx (Raw.mk n ty x y (c :: cs)) pp i
        = leavesPx c (pp ++ [i]) 0 ++ leavesPxL cs (pp ++ [i]) 1 := by
      simp [leavesPx, leavesPxL]
    rw [hn, ha, hl, List.map_append, List.map_append,
      normalize_leafAngles c x0 x1 h R (pp ++ [i]) 0,
      normalizeL_leafAngles cs x0 x1 h R (pp ++ [i]) 1]

theorem normalizeL_leafAngles : ∀ (rs : List Raw) (x0 x1 : ℚ) (h : ℕ) (R : ℚ) (pp : List ℕ) (i : ℕ),
    leafAnglesL (normalizeL x0 x1 h R rs)
      = ((leavesPxL rs pp i).map Prod.fst).map (fun x => (x - x0) / (x1 - x0) * 360)
  | [], x0, x1, h, R, pp, i => rfl
  | c :: cs, x0, x1, h, R, pp, i => by
    have h1 : normalizeL x0 x1 h R (c :: cs)
        = normalize x0 x1 h R c :: normalizeL x0 x1 h R cs := by
      simp [normalizeL]
    have h2 : leafAnglesL (normalize x0 x1 h R c :: normalizeL x0 x1 h R cs)
        = leafAngles (normalize x0 x1 h R c) ++ leafAnglesL (normalizeL x0 x1 h R cs) := by
      simp [leafAnglesL]
    have h3 : leavesPxL (c :: cs) pp i = leavesPx c pp i ++ leavesPxL cs pp (i + 1) := by
      simp [leavesPxL]
    rw [h1, h2, h3, List.map_append, List.map_append,
      normalize_leafAngles c x0 x1 h R pp i,
      normalizeL_leafAngles cs x0 x1 h R pp (i + 1)]

end

theorem borderSep_cases (t : RTree) : borderSep t = 1 ∨ borderSep t = 2 := by
  unfold borderSep sepOf
  split
  · exact Or.inl rfl
  · exact Or.inr rfl

theorem sepListOf_mem (t : RTree) (s : ℚ) (hs : s ∈ sepListOf t) : s = 1 ∨ s = 2 :=
  seps_mem _ _ s hs

theorem spanOf_pos (t : RTree) : 0 < spanOf t := by
  unfold spanOf
  have h1 : (0 : ℚ) ≤ (sepListOf t).sum := by
    refine List.sum_nonneg (fun s hs => ?_)
    rcases sepListOf_mem t s hs with h | h <;> rw [h] <;> norm_num
  rcases borderSep_cases t with h | h <;> rw [h] <;> linarith

theorem cluster_leafAngles (t : RTree) (R : ℚ) :
    leafAngles (clusterLayout t R)
      = (((scanPairs (leafParents t) ⟨none, 0⟩).1).map Prod.fst).map
          (fun x => (x - (0 - borderSep t / 2)) / spanOf t * 360) := by
  obtain ⟨p0, ps', hps⟩ := List.exists_cons_of_ne_nil (leafPar_ne_nil t [] 0)
  have hfw := firstWalk_scan t [] 0 ⟨none, 0⟩
  have hL : leavesPx (firstWalk t [] 0 ⟨none, 0⟩).1 [] 0
      = (scanPairs (leafParents t) ⟨none, 0⟩).1 := hfw.1
  have hcons : (scanPairs (leafParents t) ⟨none, 0⟩).1
      = (0, p0) :: (scanPairs ps' ⟨some p0, 0⟩).1 := by
    rw [show leafParents t = p0 :: ps' from hps]
    simp [scanPairs, stepLeaf]
  have hhead : ((scanPairs (leafParents t) ⟨none, 0⟩).1).headD (0, []) = (0, p0) := by
    rw [hcons]; rfl
  have hsnd0 : (((scanPairs (leafParents t) ⟨none, 0⟩).1).map Prod.fst).headD 0 = 0 := by
    rw [hcons]; rfl
  have hlast : ((scanPairs (leafParents t) ⟨none, 0⟩).1).getLastD (0, [])
      = ((((scanPairs (leafParents t) ⟨none, 0⟩).1).map Prod.fst).getLastD 0,
          (leafPar t [] 0).getLastD []) := by
    rw [pair_getLastD, scan_snd]
    rfl
  have hsum : (((scanPairs (leafParents t) ⟨none, 0⟩).1).map Prod.fst).getLastD 0
      = (sepListOf t).sum := by
    rw [diffs_getLast, hsnd0, scan_diffs]
    unfold sepListOf
    rw [zero_add]
  have hps0 : p0 = (leafPar t [] 0).headD [] := by
    rw [show leafPar t [] 0 = p0 :: ps' from hps]; rfl
  simp only [clusterLayout, hL, hhead, hlast, hsum]
  rw [normalize_leafAngles _ _ _ _ _ [] 0, hL]
  have hb : sepOf p0 ((leafPar t [] 0).getLastD []) = borderSep t := by
    rw [hps0]; rfl
  rw [hb]
  have hspan : (sepListOf t).sum + borderSep t / 2 - (0 - borderSep t / 2) = spanOf t := by
    unfold spanOf; ring
  rw [hspan]

/-- C5 (amended): when the built hierarchy is laid out over 360 degrees,
the leaf angles are strictly increasing in depth-first sorted-child order,
and each pair of consecutive leaves is separated by sep·(360/span), where
sep is 1 when the two leaves share a parent node and 2 otherwise, and span
is the sum of all consecutive separations plus the separation between the
first and last leaf; the spacing is a single constant only when all
separations agree, not 360/leafCount in general, and a sole leaf sits at
180° plus rotation rather than 0°. -/
theorem angular_spacing (bs : List Brand) (R : ℚ) :
    diffs (leafAngles (clusterLayout (prepareRadialData bs) R))
        = (sepListOf (prepareRadialData bs)).map
            (fun s => s * (360 / spanOf (prepareRadialData bs)))
      ∧ List.Chain' (· < ·) (leafAngles (clusterLayout (prepareRadialData bs) R))
      ∧ (∀ s ∈ sepListOf (prepareRadialData bs), s = 1 ∨ s = 2)
      ∧ 0 < spanOf (prepareRadialData bs) := by
  have hd : diffs (leafAngles (clusterLayout (prepareRadialData bs) R))
      = (sepListOf (prepareRadialData bs)).map
          (fun s => s * (360 / spanOf (prepareRadialData bs))) := by
    rw [cluster_leafAngles, diffs_map_affine, scan_diffs]
    have hfun : (fun d : ℚ => d / spanOf (prepareRadialData bs) * 360)
        = (fun s => s * (360 / spanOf (prepareRadialData bs))) := by
      funext d; ring
    rw [show List.zipWith sepOf (leafParents (prepareRadialData bs))
        (leafParents (prepareRadialData bs)).tail = sepListOf (prepareRadialData bs) from rfl,
      hfun]
  refine ⟨hd, ?_, fun s hs => sepListOf_mem _ s hs, spanOf_pos _⟩
  refine chain_of_diffs_pos _ (fun d hdm => ?_)
  rw [hd] at hdm
  rcases List.mem_map.mp hdm with ⟨s, hs, rfl⟩
  have hspos := spanOf_pos (prepareRadialData bs)
  have h360 : 0 < 360 / spanOf (prepareRadialData bs) := by positivity
  rcases sepListOf_mem _ s hs with h | h <;> rw [h] <;> linarith

theorem RTree.inductionOn {P : RTree → Prop}
    (h : ∀ n ty cs, (∀ c ∈ cs, P c) → P (RTree.mk n ty cs)) : ∀ t, P t
  | RTree.mk n ty cs => h n ty cs (fun c hc => RTree.inductionOn h c)
termination_by t => sizeOf t
decreasing_by
  have := List.sizeOf_lt_of_mem hc
  simp_wf
  omega

theorem filter_or_perm (q1 q2 : Brand → Bool) (hx : ∀ a, ¬(q1 a = true ∧ q2 a = true)) :
    ∀ l : List Brand,
      List.Perm (l.filter q1 ++ l.filter q2) (l.filter (fun a => q1 a || q2 a)) := by
  intro l
  induction l with
  | nil => rfl
  | cons a l ih =>
    by_cases h1 : q1 a = true
    · have h2 : q2 a = false := by
        cases h : q2 a
        · rfl
        · exact absurd ⟨h1, h⟩ (hx a)
      simp only [List.filter_cons, h1, h2, Bool.true_or, if_true, if_false]
      simpa using ih.cons a
    · have h1' : q1 a = false := by
        cases h : q1 a
        · rfl
        · exact absurd h h1
      by_cases h2 : q2 a = true
      · simp only [List.filter_cons, h1', h2, Bool.false_or, if_true, if_false]
        exact List.Perm.trans List.perm_middle (ih.cons a)
      · have h2' : q2 a = false := by
          cases h : q2 a
          · rfl
          · exact absurd h h2
        simpa [List.filter_cons, h1', h2'] using ih

theorem count_filter_ite (p : Brand → Bool) (a : Brand) (l : List Brand) :
    List.count a (l.filter p) = if p a = true then List.count a l else 0 := by
  by_cases h : p a = true
  · rw [if_pos h, List.count_filter h]
  · rw [if_neg h, List.count_eq_zero]
    intro hmem
    exact h (List.of_mem_filter hmem)

theorem sum_ite_count (v : String) (c : ℕ) (keys : List String) :
    (keys.map (fun k => if (v == k) = true then c else 0)).sum = keys.count v * c := by
  induction keys with
  | nil => simp
  | cons k keys ih =>
    simp only [List.map_cons, List.sum_cons, ih, List.count_cons]
    by_cases h : v = k
    · subst h
      simp [Nat.add_mul, Nat.add_comm]
    · have hb : (v == k) = false := by simpa using h
      have hb2 : (k == v) = false := by
        simp only [beq_eq_false_iff_ne, ne_eq]
        exact fun hh => h hh.symm
      simp [hb, hb2]

theorem bucket_flatten_perm (κ : Brand → String) (keys : List String) (ds : List Brand)
    (hnd : keys.Nodup) (hcov : ∀ b ∈ ds, κ b ∈ keys) :
    List.Perm (keys.map (fun k => ds.filter (fun b => κ b == k))).flatten ds := by
  rw [List.perm_iff_count]
  intro a
  rw [List.count_flatten, List.map_map]
  have hmap : keys.map (List.count a ∘ fun k => ds.filter (fun b => κ b == k))
      = keys.map (fun k => if (κ a == k) = true then List.count a ds else 0) := by
    refine List.map_congr_left (fun k _ => ?_)
    show List.count a (ds.filter (fun b => κ b == k)) = _
    rw [count_filter_ite]
  rw [hmap, sum_ite_count]
  by_cases hmem : a ∈ ds
  · rw [List.count_eq_one_of_mem hnd (hcov a hmem), Nat.one_mul]
  · rw [List.count_eq_zero.mpr hmem, Nat.mul_zero]

theorem mem_firstKeys_aux (l : List String) :
    ∀ (acc : List String) (a : String),
      (a ∈ l.foldl (fun acc k => if k ∈ acc then acc else acc ++ [k]) acc ↔ a ∈ acc ∨ a ∈ l) := by
  induction l with
  | nil => simp
  | cons k l ih =>
    intro acc a
    simp only [List.foldl_cons]
    by_cases hk : k ∈ acc
    · rw [if_pos hk, ih]
      constructor
      · rintro (h | h)
        · exact Or.inl h
        · exact Or.inr (List.mem_cons_of_mem _ h)
      · rintro (h | h)
        · exact Or.inl h
        · rcases List.mem_cons.mp h with rfl | h
          · exact Or.inl hk
          · exact Or.inr h
    · rw [if_neg hk, ih]
      simp only [List.mem_append, List.mem_singleton, List.mem_cons]
      tauto

theorem mem_firstKeys (l : List String) (a : String) : a ∈ firstKeys l ↔ a ∈ l := by
  unfold firstKeys
  rw [mem_firstKeys_aux]
  simp

theorem firstKeys_nodup_aux (l : List String) :
    ∀ acc : List String, acc.Nodup →
      (l.foldl (fun acc k => if k ∈ acc then acc else acc ++ [k]) acc).Nodup := by
  induction l with
  | nil => exact fun acc h => h
  | cons k l ih =>
    intro acc hacc
    simp only [List.foldl_cons]
    by_cases hk : k ∈ acc
    · rw [if_pos hk]
      exact ih acc hacc
    · rw [if_neg hk]
      refine ih _ ?_
      rw [List.nodup_append]
      exact ⟨hacc, List.nodup_singleton k, by simpa using hk⟩

theorem firstKeys_nodup (l : List String) : (firstKeys l).Nodup :=
  firstKeys_nodup_aux l [] List.nodup_nil

theorem forall2_map_map {α β : Type} (R : β → β → Prop) (f g : α → β) :
    ∀ (l : List α), (∀ c ∈ l, R (f c) (g c)) → List.Forall₂ R (l.map f) (l.map g)
  | [], _ => List.Forall₂.nil
  | c :: l, h => List.Forall₂.cons (h c (List.mem_cons_self c l))
      (forall2_map_map R f g l (fun d hd => h d (List.mem_cons_of_mem c hd)))

theorem flatten_forall2_perm {α : Type} :
    ∀ {L1 L2 : List (List α)}, List.Forall₂ List.Perm L1 L2 → List.Perm L1.flatten L2.flatten
  | _, _, List.Forall₂.nil => List.Perm.refl _
  | _, _, List.Forall₂.cons h hs => List.Perm.append h (flatten_forall2_perm hs)

theorem sortDeepL_eq_map (cs : List RTree) : sortDeepL cs = cs.map sortDeep := by
  induction cs with
  | nil => rfl
  | cons c cs ih => simp [sortDeepL, ih]

theorem nodesNTL_eq_flatten (cs : List RTree) : nodesNTL cs = (cs.map nodesNT).flatten := by
  induction cs with
  | nil => rfl
  | cons c cs ih => simp [nodesNTL, ih]

theorem nodesNT_mk (n ty : String) (cs : List RTree) :
    nodesNT (RTree.mk n ty cs) = (n, ty) :: nodesNTL cs := by
  simp [nodesNT]

theorem nodesNT_sortDeep (t : RTree) : List.Perm (nodesNT (sortDeep t)) (nodesNT t) := by
  refine @RTree.inductionOn (fun t => List.Perm (nodesNT (sortDeep t)) (nodesNT t))
    (fun n ty cs ih => ?_) t
  show List.Perm (nodesNT (sortDeep (RTree.mk n ty cs))) (nodesNT (RTree.mk n ty cs))
  have h1 : sortDeep (RTree.mk n ty cs)
      = RTree.mk n ty (List.insertionSort nameLe (cs.map sortDeep)) := by
    simp [sortDeep, sortDeepL_eq_map]
  rw [h1, nodesNT_mk, nodesNT_mk]
  refine List.Perm.cons _ ?_
  rw [nodesNTL_eq_flatten, nodesNTL_eq_flatten]
  have step1 : List.Perm ((List.insertionSort nameLe (cs.map sortDeep)).map nodesNT).flatten
      (((cs.map sortDeep)).map nodesNT).flatten :=
    List.Perm.flatten (List.Perm.map _ (List.perm_insertionSort _ _))
  have step2 : ((cs.map sortDeep)).map nodesNT = cs.map (fun c => nodesNT (sortDeep c)) := by
    rw [List.map_map]; rfl
  have step3 : List.Perm (cs.map (fun c => nodesNT (sortDeep c))).flatten
      ((cs.map nodesNT)).flatten :=
    flatten_forall2_perm (forall2_map_map _ _ _ cs ih)
  exact (step1.trans (by rw [step2])).trans step3

theorem leafPathsFromL_eq_flatten (pre : List String) (cs : List RTree) :
    leafPathsFromL pre cs = (cs.map (leafPathsFrom pre)).flatten := by
  induction cs with
  | nil => rfl
  | cons c cs ih => simp [leafPathsFromL, ih]

theorem leafPathsFrom_mk_ne (pre : List String) (n ty : String) (cs : List RTree)
    (h : cs ≠ []) : leafPathsFrom pre (RTree.mk n ty cs) = leafPathsFromL (pre ++ [n]) cs := by
  cases cs with
  | nil => exact absurd rfl h
  | cons c cs => simp [leafPathsFrom]

theorem leafPathsFrom_sortDeep (t : RTree) :
    ∀ pre, List.Perm (leafPathsFrom pre (sortDeep t)) (leafPathsFrom pre t) := by
  refine @RTree.inductionOn
    (fun t => ∀ pre, List.Perm (leafPathsFrom pre (sortDeep t)) (leafPathsFrom pre t))
    (fun n ty cs ih => ?_) t
  intro pre
  show List.Perm (leafPathsFrom pre (sortDeep (RTree.mk n ty cs)))
    (leafPathsFrom pre (RTree.mk n ty cs))
  have h1 : sortDeep (RTree.mk n ty cs)
      = RTree.mk n ty (List.insertionSort nameLe (cs.map sortDeep)) := by
    simp [sortDeep, sortDeepL_eq_map]
  cases cs with
  | nil =>
    rw [h1]
    exact List.Perm.refl _
  | cons c cs' =>
    rw [h1]
    have hlen : List.insertionSort nameLe ((c :: cs').map sortDeep) ≠ [] := by
      intro hnil
      have := (List.perm_insertionSort nameLe ((c :: cs').map sortDeep)).length_eq
      rw [hnil] at this
      simp at this
    rw [leafPathsFrom_mk_ne _ _ _ _ hlen, leafPathsFrom_mk_ne _ _ _ _ (by simp)]
    rw [leafPathsFromL_eq_flatten, leafPathsFromL_eq_flatten]
    have step1 : List.Perm ((List.insertionSort nameLe ((c :: cs').map sortDeep)).map
          (leafPathsFrom (pre ++ [n]))).flatten
        ((((c :: cs').map sortDeep)).map (leafPathsFrom (pre ++ [n]))).flatten :=
      List.Perm.flatten (List.Perm.map _ (List.perm_insertionSort _ _))
    have step2 : (((c :: cs').map sortDeep)).map (leafPathsFrom (pre ++ [n]))
        = (c :: cs').map (fun d => leafPathsFrom (pre ++ [n]) (sortDeep d)) := by
      rw [List.map_map]; rfl
    have step3 : List.Perm ((c :: cs').map
          (fun d => leafPathsFrom (pre ++ [n]) (sortDeep d))).flatten
        (((c :: cs').map (leafPathsFrom (pre ++ [n])))).flatten :=
      flatten_forall2_perm (forall2_map_map _ _ _ _ (fun d hd => ih d hd (pre ++ [n])))
    exact (step1.trans (by rw [step2])).trans step3

theorem brandsOfNT_append (l1 l2 : List (String × String)) :
    brandsOfNT (l1 ++ l2) = brandsOfNT l1 ++ brandsOfNT l2 := by
  simp [brandsOfNT]

theorem brandsOfNT_flatten (L : List (List (String × String))) :
    brandsOfNT L.flatten = (L.map brandsOfNT).flatten := by
  induction L with
  | nil => rfl
  | cons l L ih => simp [brandsOfNT_append, ih]

theorem nodesNTL_append (l1 l2 : List RTree) :
    nodesNTL (l1 ++ l2) = nodesNTL l1 ++ nodesNTL l2 := by
  rw [nodesNTL_eq_flatten, nodesNTL_eq_flatten, nodesNTL_eq_flatten, List.map_append,
    List.flatten_append]

theorem flatten_map_map {α β γ : Type} (keys : List α) (f : α → List β) (g : β → γ) :
    (keys.map (fun k => (f k).map g)).flatten = ((keys.map f).flatten).map g := by
  induction keys with
  | nil => rfl
  | cons k keys ih => simp [ih]

theorem brandsOfNT_leaves (bucket : List Brand) :
    brandsOfNT (nodesNTL (bucket.map leafOf)) = bucket.map (·.name) := by
  induction bucket with
  | nil => rfl
  | cons b bucket ih =>
    have h1 : nodesNTL (leafOf b :: bucket.map leafOf)
        = nodesNT (leafOf b) ++ nodesNTL (bucket.map leafOf) := by
      simp [nodesNTL]
    have h2 : nodesNT (leafOf b) = [(b.name, "brand")] := by
      simp [leafOf, nodesNT, nodesNTL]
    simp only [List.map_cons, h1, h2, brandsOfNT_append, ih]
    simp [brandsOfNT]

theorem brandsOfNT_catNode (k : String) (bucket : List Brand) :
    brandsOfNT (nodesNT (RTree.mk k "category" (bucket.map leafOf)))
      = bucket.map (·.name) := by
  rw [nodesNT_mk]
  have : brandsOfNT ((k, "category") :: nodesNTL (bucket.map leafOf))
      = brandsOfNT (nodesNTL (bucket.map leafOf)) := by
    simp [brandsOfNT]
  rw [this, brandsOfNT_leaves]

theorem brandsOfNT_catNodes (ds : List Brand) :
    List.Perm (brandsOfNT (nodesNTL (catNodes ds))) (ds.map (·.name)) := by
  unfold catNodes
  rw [nodesNTL_eq_flatten, List.map_map, brandsOfNT_flatten, List.map_map]
  have hpt : (firstKeys (ds.map catName)).map
        (brandsOfNT ∘ nodesNT ∘ fun k =>
          RTree.mk k "category" ((ds.filter (fun b => catName b == k)).map leafOf))
      = (firstKeys (ds.map catName)).map
          (fun k => (ds.filter (fun b => catName b == k)).map (·.name)) := by
    refine List.map_congr_left (fun k _ => ?_)
    exact brandsOfNT_catNode k _
  rw [hpt, flatten_map_map]
  refine List.Perm.map _ ?_
  exact bucket_flatten_perm catName _ ds (firstKeys_nodup _)
    (fun b hb => (mem_firstKeys _ _).mpr (List.mem_map_of_mem _ hb))

theorem brandsOfNT_filter_empty : ∀ (ns : List RTree),
    (∀ n ∈ ns, n.children.isEmpty = true → (n.ty == "brand") = false) →
    brandsOfNT (nodesNTL (ns.filter (fun n => !n.children.isEmpty)))
      = brandsOfNT (nodesNTL ns)
  | [], _ => rfl
  | n :: ns, h => by
    have ih := brandsOfNT_filter_empty ns (fun m hm => h m (List.mem_cons_of_mem n hm))
    by_cases he : n.children.isEmpty = true
    · obtain ⟨a, b, cs⟩ := n
      have hcs : cs = [] := by
        have := he
        simp only [RTree.children] at this
        exact List.isEmpty_iff.mp this
      subst hcs
      have hty := h _ (List.mem_cons_self _ _) he
      simp only [RTree.ty] at hty
      have h1 : List.filter (fun n => !n.children.isEmpty) (RTree.mk a b [] :: ns)
          = List.filter (fun n => !n.children.isEmpty) ns := by
        simp [List.filter_cons, RTree.children]
      have h2 : nodesNTL (RTree.mk a b [] :: ns)
          = (a, b) :: nodesNTL ns := by
        simp [nodesNTL, nodesNT]
      rw [h1, h2, ih]
      simp [brandsOfNT, hty]
    · have h1 : List.filter (fun n => !n.children.isEmpty) (n :: ns)
          = n :: List.filter (fun n => !n.children.isEmpty) ns := by
        simp only [List.filter_cons]
        rw [if_pos (by simp [he])]
      have h2 : ∀ ms, nodesNTL (n :: ms) = nodesNT n ++ nodesNTL ms := fun ms => by
        simp [nodesNTL]
      rw [h1, h2, h2, brandsOfNT_append, brandsOfNT_append, ih]

theorem contains_lorealCats (x : String) :
    lorealCats.contains x
      = ((x == "Fragrances") || ((x == "Cosmetics") || (x == "Skincare"))) := by
  cases h1 : x == "Fragrances" <;> cases h2 : x == "Cosmetics" <;> cases h3 : x == "Skincare" <;>
    simp [lorealCats, List.contains, List.elem, h1, h2, h3]

theorem brandsOfNT_lorealSub (ls : List Brand) :
    List.Perm (brandsOfNT (nodesNTL (lorealSubNodes ls)))
      ((ls.filter (fun b => lorealCats.contains b.category)).map (·.name)) := by
  unfold lorealSubNodes
  rw [brandsOfNT_filter_empty _ (by
    intro n hn _
    rcases List.mem_map.mp hn with ⟨k, _, rfl⟩
    simp [RTree.ty])]
  rw [nodesNTL_eq_flatten, List.map_map, brandsOfNT_flatten, List.map_map]
  have hpt : lorealCats.map
        (brandsOfNT ∘ nodesNT ∘ fun k =>
          RTree.mk k "category" ((ls.filter (fun b => b.category == k)).map leafOf))
      = lorealCats.map (fun k => (ls.filter (fun b => b.category == k)).map (·.name)) := by
    refine List.map_congr_left (fun k _ => ?_)
    exact brandsOfNT_catNode k _
  rw [hpt, flatten_map_map]
  refine List.Perm.map _ ?_
  have hexp : (lorealCats.map (fun k => ls.filter (fun b => b.category == k))).flatten
      = (ls.filter (fun b => b.category == "Fragrances")
          ++ ls.filter (fun b => b.category == "Cosmetics"))
          ++ ls.filter (fun b => b.category == "Skincare") := by
    simp [lorealCats, List.flatten]
  rw [hexp]
  have hp1 : List.Perm
      (ls.filter (fun b => b.category == "Fragrances")
        ++ ls.filter (fun b => b.category == "Cosmetics"))
      (ls.filter (fun b => (b.category == "Fragrances") || (b.category == "Cosmetics"))) := by
    refine filter_or_perm _ _ (fun a => ?_) ls
    rintro ⟨h1, h2⟩
    have e1 := eq_of_beq h1
    have e2 := eq_of_beq h2
    rw [e1] at e2
    exact absurd e2 (by decide)
  have hp2 : List.Perm
      ((ls.filter (fun b => b.category == "Fragrances")
          ++ ls.filter (fun b => b.category == "Cosmetics"))
        ++ ls.filter (fun b => b.category == "Skincare"))
      (ls.filter (fun b =>
        ((b.category == "Fragrances") || (b.category == "Cosmetics"))
          || (b.category == "Skincare"))) := by
    refine List.Perm.trans (List.Perm.append hp1 (List.Perm.refl _)) ?_
    refine filter_or_perm _ _ (fun a => ?_) ls
    rintro ⟨h1, h2⟩
    have e2 := eq_of_beq h2
    rcases Bool.or_eq_true _ _ |>.mp h1 with h1 | h1
    · have e1 := eq_of_beq h1
      rw [e1] at e2
      exact absurd e2 (by decide)
    · have e1 := eq_of_beq h1
      rw [e1] at e2
      exact absurd e2 (by decide)
  refine List.Perm.trans hp2 ?_
  have : (fun b : Brand =>
      ((b.category == "Fragrances") || (b.category == "Cosmetics"))
        || (b.category == "Skincare"))
      = (fun b : Brand => lorealCats.contains b.category) := by
    funext b
    rw [contains_lorealCats]
    cases b.category == "Fragrances" <;> cases b.category == "Cosmetics" <;>
      cases b.category == "Skincare" <;> rfl
  rw [this]

theorem brandsOfNT_cons_drop (n ty : String) (l : List (String × String))
    (h : (ty == "brand") = false) : brandsOfNT ((n, ty) :: l) = brandsOfNT l := by
  simp [brandsOfNT, h]

theorem direct_partition_none (bs : List Brand) :
    List.Perm (bs.filter (fun b => b.parent_brand != lorealName)
        ++ bs.filter (fun b => b.parent_brand == lorealName)) bs := by
  have h1 := filter_or_perm (fun b => b.parent_brand != lorealName)
    (fun b => b.parent_brand == lorealName) (fun a => by
      rintro ⟨hx, hy⟩
      simp [bne, hy] at hx) bs
  refine h1.trans ?_
  have heq : List.filter
      (fun a : Brand => a.parent_brand != lorealName || a.parent_brand == lorealName) bs
      = List.filter (fun _ => true) bs :=
    List.filter_congr (fun b _ => by
      cases hx : b.parent_brand == lorealName <;> simp [bne, hx])
  rw [heq, List.filter_true]

theorem accepted_partition_some (bs : List Brand) :
    List.Perm
      (bs.filter (fun b => lorealCats.contains b.category
          && (b.name != lorealName && b.parent_brand == lorealName))
        ++ bs.filter (fun b => b.name != lorealName && b.parent_brand != lorealName))
      (bs.filter (fun b => b.name != lorealName
          && (b.parent_brand != lorealName || lorealCats.contains b.category))) := by
  have h1 := filter_or_perm
    (fun b => lorealCats.contains b.category
      && (b.name != lorealName && b.parent_brand == lorealName))
    (fun b => b.name != lorealName && b.parent_brand != lorealName) (fun a => by
      rintro ⟨hx, hy⟩
      rcases Bool.and_eq_true _ _ |>.mp hx with ⟨_, hx2⟩
      rcases Bool.and_eq_true _ _ |>.mp hx2 with ⟨_, hx4⟩
      rcases Bool.and_eq_true _ _ |>.mp hy with ⟨_, hy2⟩
      simp [bne, hx4] at hy2) bs
  refine h1.trans ?_
  have heq : List.filter
      (fun a : Brand => lorealCats.contains a.category
        && (a.name != lorealName && a.parent_brand == lorealName)
        || a.name != lorealName && a.parent_brand != lorealName) bs
      = List.filter (fun b => b.name != lorealName
          && (b.parent_brand != lorealName || lorealCats.contains b.category)) bs :=
    List.filter_congr (fun b _ => by
      cases hx : b.name == lorealName <;> cases hy : b.parent_brand == lorealName <;>
        cases hz : lorealCats.contains b.category <;> simp [bne, hx, hy, hz])
  rw [heq]

theorem lorOpt_part (ls : List Brand) :
    List.Perm (brandsOfNT (nodesNTL
        (if (lorealSubNodes ls).isEmpty then [] else
          [RTree.mk lorealName "loreal_parent" (lorealSubNodes ls)])))
      ((ls.filter (fun b => lorealCats.contains b.category)).map (·.name)) := by
  by_cases hce : (lorealSubNodes ls).isEmpty = true
  · rw [if_pos hce]
    have hsub : lorealSubNodes ls = [] := List.isEmpty_iff.mp hce
    have hperm := brandsOfNT_lorealSub ls
    rw [hsub] at hperm
    exact hperm
  · rw [if_neg hce]
    have h1 : nodesNTL [RTree.mk lorealName "loreal_parent" (lorealSubNodes ls)]
        = nodesNT (RTree.mk lorealName "loreal_parent" (lorealSubNodes ls)) := by
      simp [nodesNTL]
    rw [h1, nodesNT_mk, brandsOfNT_cons_drop _ _ _ (by decide)]
    exact brandsOfNT_lorealSub ls

theorem brandLeafNames_core (bs : List Brand) :
    List.Perm (brandsOfNT (nodesNT (prepareCore bs))) ((acceptedRecords bs).map (·.name)) := by
  unfold prepareCore
  cases hf : entityRecord bs with
  | none =>
    have hacc : acceptedRecords bs = bs := by
      unfold acceptedRecords
      rw [hf]
      rfl
    rw [hacc, nodesNT_mk, brandsOfNT_cons_drop _ _ _ (by decide)]
    exact (brandsOfNT_catNodes _).trans ((direct_partition_none bs).map _)
  | some v =>
    have hacc : acceptedRecords bs = bs.filter (fun b =>
        b.name != lorealName && (b.parent_brand != lorealName
          || lorealCats.contains b.category)) := by
      unfold acceptedRecords
      rw [hf]
      rfl
    rw [hacc, nodesNT_mk, brandsOfNT_cons_drop _ _ _ (by decide)]
    simp only [RTree.children]
    rw [nodesNTL_append, brandsOfNT_append]
    have h3 := List.Perm.append
      (lorOpt_part (bs.filter (fun b => b.name != lorealName && b.parent_brand == lorealName)))
      (brandsOfNT_catNodes
        (bs.filter (fun b => b.name != lorealName && b.parent_brand != lorealName)))
    refine h3.trans ?_
    rw [← List.map_append]
    refine List.Perm.map _ ?_
    rw [List.filter_filter]
    exact accepted_partition_some bs

/-- C1 (amended): the multiset of brand-leaf names of the built tree is
exactly the names of the accepted records — every record when no entity
record is present, and otherwise every record not named like the entity
whose parent_brand is either not the entity or whose category is one of
the three known buckets.  Every input record is an accepted record, a
warned-and-dropped record, or a record named like the present entity (the
latter produce no leaf and no log line). -/
theorem conservation (bs : List Brand) :
    List.Perm (brandLeafNames (prepareRadialData bs)) ((acceptedRecords bs).map (·.name))
      ∧ List.Perm (acceptedRecords bs ++ (warnedRecords bs
          ++ bs.filter (fun b => (entityRecord bs).isSome && b.name == lorealName))) bs := by
  constructor
  · have hs : List.Perm (nodesNT (prepareRadialData bs)) (nodesNT (prepareCore bs)) :=
      nodesNT_sortDeep (prepareCore bs)
    have hb : List.Perm (brandLeafNames (prepareRadialData bs))
        (brandsOfNT (nodesNT (prepareCore bs))) := by
      unfold brandLeafNames brandsOfNT
      exact (hs.filter _).map _
    exact hb.trans (brandLeafNames_core bs)
  · cases hf : entityRecord bs with
    | none =>
      have h1 : acceptedRecords bs = bs := by unfold acceptedRecords; rw [hf]; rfl
      have h2 : warnedRecords bs = [] := by unfold warnedRecords; rw [hf]; rfl
      rw [h1, h2]
      simp
    | some v =>
      have h1 : acceptedRecords bs = bs.filter (fun b =>
          b.name != lorealName && (b.parent_brand != lorealName
            || lorealCats.contains b.category)) := by
        unfold acceptedRecords; rw [hf]; rfl
      have h2 : warnedRecords bs = bs.filter (fun b =>
          b.name != lorealName && b.parent_brand == lorealName
            && !lorealCats.contains b.category) := by
        unfold warnedRecords; rw [hf]; rfl
      have h3 : bs.filter (fun b => (some v).isSome && b.name == lorealName)
          = bs.filter (fun b => b.name == lorealName) :=
        List.filter_congr (fun b _ => by simp)
      rw [h1, h2, h3, ← List.append_assoc]
      have hd1 : ∀ a : Brand, ¬((a.name != lorealName
            && (a.parent_brand != lorealName || lorealCats.contains a.category)) = true
          ∧ (a.name != lorealName && a.parent_brand == lorealName
            && !lorealCats.contains a.category) = true) := by
        intro a
        rintro ⟨hx, hy⟩
        cases h1 : a.parent_brand == lorealName <;> cases h2 : lorealCats.contains a.category <;>
          simp [bne, h1, h2] at hx hy <;> exact hy.2 hx.2
      have hp1 := filter_or_perm _ _ hd1 bs
      have hd2 : ∀ a : Brand, ¬(((fun b => (b.name != lorealName
            && (b.parent_brand != lorealName || lorealCats.contains b.category))
            || (b.name != lorealName && b.parent_brand == lorealName
              && !lorealCats.contains b.category)) a) = true
          ∧ (a.name == lorealName) = true) := by
        intro a
        rintro ⟨hx, hy⟩
        simp [bne, hy] at hx
      have hp2 := filter_or_perm _ _ hd2 bs
      refine ((hp1.append (List.Perm.refl _)).trans hp2).trans ?_
      have heq : List.filter
          (fun a : Brand => (a.name != lorealName
              && (a.parent_brand != lorealName || lorealCats.contains a.category)
            || a.name != lorealName && a.parent_brand == lorealName
              && !lorealCats.contains a.category)
            || a.name == lorealName) bs
          = List.filter (fun _ => true) bs :=
        List.filter_congr (fun b _ => by
          cases hx : b.name == lorealName <;> cases hy : b.parent_brand == lorealName <;>
            cases hz : lorealCats.contains b.category <;> simp [bne, hx, hy, hz])
      rw [heq, List.filter_true]

theorem nodesNTL_leaves (bucket : List Brand) :
    nodesNTL (bucket.map leafOf) = bucket.map (fun b => (b.name, "brand")) := by
  induction bucket with
  | nil => rfl
  | cons b l ih =>
    have h1 : nodesNTL (leafOf b :: l.map leafOf)
        = nodesNT (leafOf b) ++ nodesNTL (l.map leafOf) := by
      simp [nodesNTL]
    simp [h1, leafOf, nodesNT, nodesNTL, ih]

theorem mem_nodesNTL (l : List RTree) (p : String × String) :
    p ∈ nodesNTL l ↔ ∃ c ∈ l, p ∈ nodesNT c := by
  rw [nodesNTL_eq_flatten]
  constructor
  · intro h
    rcases List.mem_flatten.mp h with ⟨ps, hps, hx⟩
    rcases List.mem_map.mp hps with ⟨c, hc, rfl⟩
    exact ⟨c, hc, hx⟩
  · rintro ⟨c, hc, hx⟩
    exact List.mem_flatten.mpr ⟨_, List.mem_map_of_mem _ hc, hx⟩

theorem mem_leafPathsFromL (pre : List String) (l : List RTree) (x : List String) :
    x ∈ leafPathsFromL pre l ↔ ∃ c ∈ l, x ∈ leafPathsFrom pre c := by
  rw [leafPathsFromL_eq_flatten]
  constructor
  · intro h
    rcases List.mem_flatten.mp h with ⟨ps, hps, hx⟩
    rcases List.mem_map.mp hps with ⟨c, hc, rfl⟩
    exact ⟨c, hc, hx⟩
  · rintro ⟨c, hc, hx⟩
    exact List.mem_flatten.mpr ⟨_, List.mem_map_of_mem _ hc, hx⟩

theorem leafPathsFromL_append (pre : List String) (l1 l2 : List RTree) :
    leafPathsFromL pre (l1 ++ l2) = leafPathsFromL pre l1 ++ leafPathsFromL pre l2 := by
  rw [leafPathsFromL_eq_flatten, leafPathsFromL_eq_flatten, leafPathsFromL_eq_flatten,
    List.map_append, List.flatten_append]

theorem append_ne_nil_left {α : Type} (l1 l2 : List α) (h : l1 ≠ []) : l1 ++ l2 ≠ [] := by
  intro hh
  exact h (List.append_eq_nil.mp hh).1

theorem append_ne_nil_right {α : Type} (l1 l2 : List α) (h : l2 ≠ []) : l1 ++ l2 ≠ [] := by
  intro hh
  exact h (List.append_eq_nil.mp hh).2

theorem entity_exists_iff (bs : List Brand) :
    (entityRecord bs).isSome = true ↔ ∃ e ∈ bs, e.name = lorealName := by
  unfold entityRecord
  rw [List.find?_isSome]
  simp

theorem lorealSub_node_mem (ls : List Brand) (b : Brand) (hb : b ∈ ls)
    (hcat : b.category ∈ lorealCats) :
    RTree.mk b.category "category"
        ((ls.filter (fun x => x.category == b.category)).map leafOf)
      ∈ lorealSubNodes ls := by
  unfold lorealSubNodes
  refine List.mem_filter.mpr ⟨List.mem_map_of_mem _ hcat, ?_⟩
  have hbb : b ∈ ls.filter (fun x => x.category == b.category) :=
    List.mem_filter.mpr ⟨hb, by simp⟩
  have hne : (ls.filter (fun x => x.category == b.category)).map leafOf ≠ [] :=
    List.ne_nil_of_mem (List.mem_map_of_mem _ hbb)
  simp only [RTree.children, Bool.not_eq_true']
  cases hE : ((ls.filter (fun x => x.category == b.category)).map leafOf).isEmpty
  · rfl
  · exact absurd (List.isEmpty_iff.mp hE) hne

theorem lorealSub_exists (ls : List Brand) (h : lorealSubNodes ls ≠ []) :
    ∃ b ∈ ls, b.category ∈ lorealCats := by
  rcases List.exists_mem_of_ne_nil _ h with ⟨n, hn⟩
  unfold lorealSubNodes at hn
  have hn2 := List.mem_filter.mp hn
  rcases List.mem_map.mp hn2.1 with ⟨k, hk, rfl⟩
  have hne := hn2.2
  simp only [RTree.children] at hne
  have hbne : ls.filter (fun b => b.category == k) ≠ [] := by
    intro hnil
    rw [hnil] at hne
    simp at hne
  rcases List.exists_mem_of_ne_nil _ hbne with ⟨b, hbmem⟩
  have hb2 := List.mem_filter.mp hbmem
  refine ⟨b, hb2.1, ?_⟩
  rw [eq_of_beq hb2.2]
  exact hk

theorem ty_of_mem_catlike (k : String) (bucket : List Brand) (p : String × String)
    (hp : p ∈ nodesNT (RTree.mk k "category" (bucket.map leafOf))) :
    p.2 = "category" ∨ ∃ b ∈ bucket, p = (b.name, "brand") := by
  rw [nodesNT_mk, nodesNTL_leaves] at hp
  rcases List.mem_cons.mp hp with rfl | hp
  · exact Or.inl rfl
  · rcases List.mem_map.mp hp with ⟨b, hb, rfl⟩
    exact Or.inr ⟨b, hb, rfl⟩

theorem mem_nodesNTL_catNodes (ds : List Brand) (p : String × String)
    (hp : p ∈ nodesNTL (catNodes ds)) :
    (∃ k, p = (k, "category")) ∨ ∃ b ∈ ds, p = (b.name, "brand") := by
  rcases (mem_nodesNTL _ _).mp hp with ⟨c, hc, hpc⟩
  unfold catNodes at hc
  rcases List.mem_map.mp hc with ⟨k, _, rfl⟩
  rcases ty_of_mem_catlike k _ p hpc with h | ⟨b, hb, rfl⟩
  · obtain ⟨p1, p2⟩ := p
    simp only at h
    subst h
    exact Or.inl ⟨p1, rfl⟩
  · exact Or.inr ⟨b, (List.mem_filter.mp hb).1, rfl⟩

theorem mem_nodesNTL_lorealSub (ls : List Brand) (p : String × String)
    (hp : p ∈ nodesNTL (lorealSubNodes ls)) :
    (∃ k, p = (k, "category")) ∨ ∃ b ∈ ls, p = (b.name, "brand") := by
  rcases (mem_nodesNTL _ _).mp hp with ⟨c, hc, hpc⟩
  unfold lorealSubNodes at hc
  have hc1 := (List.mem_filter.mp hc).1
  rcases List.mem_map.mp hc1 with ⟨k, _, rfl⟩
  rcases ty_of_mem_catlike k _ p hpc with h | ⟨b, hb, rfl⟩
  · obtain ⟨p1, p2⟩ := p
    simp only at h
    subst h
    exact Or.inl ⟨p1, rfl⟩
  · exact Or.inr ⟨b, (List.mem_filter.mp hb).1, rfl⟩

theorem prepareCore_some (bs : List Brand) (v : Brand) (hv : entityRecord bs = some v) :
    prepareCore bs = RTree.mk "Nestlé" "root"
      ((if (lorealSubNodes (bs.filter
            (fun b => b.name != lorealName && b.parent_brand == lorealName))).isEmpty
          then []
          else [RTree.mk lorealName "loreal_parent" (lorealSubNodes (bs.filter
            (fun b => b.name != lorealName && b.parent_brand == lorealName)))])
        ++ catNodes (bs.filter
            (fun b => b.name != lorealName && b.parent_brand != lorealName))) := by
  unfold prepareCore
  rw [hv]
  simp only [RTree.children]

theorem path_in_core_loreal (bs : List Brand) (v : Brand) (hv : entityRecord bs = some v)
    (b : Brand) (hb : b ∈ bs) (hname : b.name ≠ lorealName)
    (hpar : b.parent_brand = lorealName) (hcat : b.category ∈ lorealCats) :
    ["Nestlé", lorealName, b.category, b.name] ∈ leafPathsFrom [] (prepareCore bs) := by
  have hbl : b ∈ bs.filter (fun x => x.name != lorealName && x.parent_brand == lorealName) :=
    List.mem_filter.mpr ⟨hb, by simp [hname, hpar]⟩
  have hnode := lorealSub_node_mem _ b hbl hcat
  have hsub_ne : lorealSubNodes (bs.filter
      (fun x => x.name != lorealName && x.parent_brand == lorealName)) ≠ [] :=
    List.ne_nil_of_mem hnode
  have hsub_ie : (lorealSubNodes (bs.filter
      (fun x => x.name != lorealName && x.parent_brand == lorealName))).isEmpty = false := by
    cases hE : (lorealSubNodes (bs.filter
        (fun x => x.name != lorealName && x.parent_brand == lorealName))).isEmpty
    · rfl
    · exact absurd (List.isEmpty_iff.mp hE) hsub_ne
  rw [prepareCore_some bs v hv, if_neg (by simp [hsub_ie])]
  rw [leafPathsFrom_mk_ne _ _ _ _ (append_ne_nil_left _ _ (by simp))]
  rw [leafPathsFromL_append]
  refine List.mem_append_left _ ?_
  refine (mem_leafPathsFromL _ _ _).mpr ⟨_, List.mem_singleton.mpr rfl, ?_⟩
  rw [leafPathsFrom_mk_ne _ _ _ _ hsub_ne]
  refine (mem_leafPathsFromL _ _ _).mpr ⟨_, hnode, ?_⟩
  have hbucket : b ∈ (bs.filter
      (fun x => x.name != lorealName && x.parent_brand == lorealName)).filter
      (fun x => x.category == b.category) :=
    List.mem_filter.mpr ⟨hbl, by simp⟩
  rw [leafPathsFrom_mk_ne _ _ _ _ (List.ne_nil_of_mem (List.mem_map_of_mem _ hbucket))]
  refine (mem_leafPathsFromL _ _ _).mpr ⟨leafOf b, List.mem_map_of_mem _ hbucket, ?_⟩
  simp [leafOf, leafPathsFrom]

theorem path_in_core_direct (bs : List Brand) (v : Brand) (hv : entityRecord bs = some v)
    (b : Brand) (hb : b ∈ bs) (hname : b.name ≠ lorealName)
    (hpar : b.parent_brand ≠ lorealName) :
    ["Nestlé", catName b, b.name] ∈ leafPathsFrom [] (prepareCore bs) := by
  have hbd : b ∈ bs.filter (fun x => x.name != lorealName && x.parent_brand != lorealName) :=
    List.mem_filter.mpr ⟨hb, by simp [hname, hpar]⟩
  have hkey : catName b ∈ firstKeys ((bs.filter
      (fun x => x.name != lorealName && x.parent_brand != lorealName)).map catName) :=
    (mem_firstKeys _ _).mpr (List.mem_map_of_mem _ hbd)
  have hnode : RTree.mk (catName b) "category"
      (((bs.filter (fun x => x.name != lorealName && x.parent_brand != lorealName)).filter
        (fun x => catName x == catName b)).map leafOf)
      ∈ catNodes (bs.filter (fun x => x.name != lorealName && x.parent_brand != lorealName)) := by
    unfold catNodes
    exact List.mem_map_of_mem _ hkey
  rw [prepareCore_some bs v hv]
  rw [leafPathsFrom_mk_ne _ _ _ _ (append_ne_nil_right _ _ (List.ne_nil_of_mem hnode))]
  rw [leafPathsFromL_append]
  refine List.mem_append_right _ ?_
  refine (mem_leafPathsFromL _ _ _).mpr ⟨_, hnode, ?_⟩
  have hbucket : b ∈ (bs.filter
      (fun x => x.name != lorealName && x.parent_brand != lorealName)).filter
      (fun x => catName x == catName b) :=
    List.mem_filter.mpr ⟨hbd, by simp⟩
  rw [leafPathsFrom_mk_ne _ _ _ _ (List.ne_nil_of_mem (List.mem_map_of_mem _ hbucket))]
  refine (mem_leafPathsFromL _ _ _).mpr ⟨leafOf b, List.mem_map_of_mem _ hbucket, ?_⟩
  simp [leafOf, leafPathsFrom]

theorem loreal_node_iff_core (bs : List Brand) (v : Brand) (hv : entityRecord bs = some v) :
    ((lorealName, "loreal_parent") ∈ nodesNT (prepareCore bs) ↔
      ∃ b2 ∈ bs, b2.name ≠ lorealName ∧ b2.parent_brand = lorealName
        ∧ b2.category ∈ lorealCats) := by
  rw [prepareCore_some bs v hv]
  constructor
  · intro hmem
    rw [nodesNT_mk] at hmem
    rcases List.mem_cons.mp hmem with heq | hmem
    · exact absurd heq (by decide)
    · by_cases hE : (lorealSubNodes (bs.filter
          (fun x => x.name != lorealName && x.parent_brand == lorealName))).isEmpty = true
      · rw [if_pos hE, List.nil_append] at hmem
        rcases mem_nodesNTL_catNodes _ _ hmem with ⟨k, hk⟩ | ⟨b2, _, hk⟩ <;> simp at hk
      · have hne : lorealSubNodes (bs.filter
            (fun x => x.name != lorealName && x.parent_brand == lorealName)) ≠ [] := by
          intro h
          exact hE (by rw [h]; rfl)
        rcases lorealSub_exists _ hne with ⟨b2, hb2, hcat2⟩
        have hm := List.mem_filter.mp hb2
        have hprops := Bool.and_eq_true _ _ |>.mp hm.2
        exact ⟨b2, hm.1, bne_iff_ne.mp hprops.1, eq_of_beq hprops.2, hcat2⟩
  · rintro ⟨b2, hb2, hn2, hp2, hc2⟩
    have hbl : b2 ∈ bs.filter (fun x => x.name != lorealName && x.parent_brand == lorealName) :=
      List.mem_filter.mpr ⟨hb2, by simp [hn2, hp2]⟩
    have hnode := lorealSub_node_mem _ b2 hbl hc2
    have hne : lorealSubNodes (bs.filter
        (fun x => x.name != lorealName && x.parent_brand == lorealName)) ≠ [] :=
      List.ne_nil_of_mem hnode
    have hE : (lorealSubNodes (bs.filter
        (fun x => x.name != lorealName && x.parent_brand == lorealName))).isEmpty = false := by
      cases hEE : (lorealSubNodes (bs.filter
          (fun x => x.name != lorealName && x.parent_brand == lorealName))).isEmpty
      · rfl
      · exact absurd (List.isEmpty_iff.mp hEE) hne
    rw [nodesNT_mk, if_neg (by simp [hE]), nodesNTL_append]
    refine List.mem_cons_of_mem _ (List.mem_append_left _ ?_)
    have h1 : nodesNTL [RTree.mk lorealName "loreal_parent" (lorealSubNodes (bs.filter
          (fun x => x.name != lorealName && x.parent_brand == lorealName)))]
        = nodesNT (RTree.mk lorealName "loreal_parent" (lorealSubNodes (bs.filter
          (fun x => x.name != lorealName && x.parent_brand == lorealName)))) := by
      simp [nodesNTL]
    rw [h1, nodesNT_mk]
    exact List.mem_cons_self _ _

/-- C8 (amended): an empty brand list is handled without error — the build
yields the bare root node, and the d3.cluster layout with size [360, R]
places that sole node at angle 180 (the midpoint of the angular range, not
angle 0) and radius 0. -/
theorem empty_input_layout (R : ℚ) :
    prepareRadialData [] = RTree.mk "Nestlé" "root" []
      ∧ clusterLayout (prepareRadialData []) R = PT.mk "Nestlé" "root" 180 0 [] := by
  refine ⟨rfl, ?_⟩
  have h : prepareRadialData [] = RTree.mk "Nestlé" "root" [] := rfl
  rw [h]
  norm_num [clusterLayout, firstWalk, firstWalkL, leavesPx, leavesPxL, stepLeaf, sepOf,
    meanX, maxY, normalize, normalizeL, Raw.y]

/-- C4 (amended): with the parent entity record present, every record
parented to the entity whose category is one of the three fixed buckets
becomes a leaf two levels below the root (root, entity node, bucket
category, brand), every record not named like and not parented to the
entity becomes a leaf one level of grouping below the root (root, its
category or Uncategorized, brand), and the entity node itself appears in
the tree exactly when at least one entity-parented record with a bucket
category exists; entity-parented records with any other category are not
placed in the tree at all. -/
theorem nesting (bs : List Brand) (b : Brand) :
    ((∃ e ∈ bs, e.name = lorealName) → b ∈ bs → b.name ≠ lorealName →
        b.parent_brand = lorealName → b.category ∈ lorealCats →
        ["Nestlé", lorealName, b.category, b.name] ∈ leafPathsFrom [] (prepareRadialData bs))
      ∧ ((∃ e ∈ bs, e.name = lorealName) → b ∈ bs → b.name ≠ lorealName →
        b.parent_brand ≠ lorealName →
        ["Nestlé", catName b, b.name] ∈ leafPathsFrom [] (prepareRadialData bs))
      ∧ ((∃ e ∈ bs, e.name = lorealName) →
        ((lorealName, "loreal_parent") ∈ nodesNT (prepareRadialData bs)
          ↔ ∃ b2 ∈ bs, b2.name ≠ lorealName ∧ b2.parent_brand = lorealName
              ∧ b2.category ∈ lorealCats)) := by
  refine ⟨fun he hb hn hp hc => ?_, fun he hb hn hp => ?_, fun he => ?_⟩
  · obtain ⟨v, hv⟩ := Option.isSome_iff_exists.mp ((entity_exists_iff bs).mpr he)
    exact (leafPathsFrom_sortDeep (prepareCore bs) []).mem_iff.mpr
      (path_in_core_loreal bs v hv b hb hn hp hc)
  · obtain ⟨v, hv⟩ := Option.isSome_iff_exists.mp ((entity_exists_iff bs).mpr he)
    exact (leafPathsFrom_sortDeep (prepareCore bs) []).mem_iff.mpr
      (path_in_core_direct bs v hv b hb hn hp)
  · obtain ⟨v, hv⟩ := Option.isSome_iff_exists.mp ((entity_exists_iff bs).mpr he)
    exact ((nodesNT_sortDeep (prepareCore bs)).mem_iff).trans (loreal_node_iff_core bs v hv)

theorem nesting_witness :
    ((∃ e ∈ ([⟨lorealName, "", "", "", "", "", ""⟩,
          ⟨"Lancôme", "Cosmetics", "", "", "", lorealName, ""⟩,
          ⟨"KitKat", "Confectionery", "", "", "", "", ""⟩] : List Brand), e.name = lorealName)
      ∧ ["Nestlé", lorealName, "Cosmetics", "Lancôme"]
          ∈ leafPathsFrom [] (prepareRadialData
            ([⟨lorealName, "", "", "", "", "", ""⟩,
              ⟨"Lancôme", "Cosmetics", "", "", "", lorealName, ""⟩,
              ⟨"KitKat", "Confectionery", "", "", "", "", ""⟩] : List Brand))
      ∧ ["Nestlé", "Confectionery", "KitKat"]
          ∈ leafPathsFrom [] (prepareRadialData
            ([⟨lorealName, "", "", "", "", "", ""⟩,
              ⟨"Lancôme", "Cosmetics", "", "", "", lorealName, ""⟩,
              ⟨"KitKat", "Confectionery", "", "", "", "", ""⟩] : List Brand))
      ∧ ((lorealName, "loreal_parent")
            ∈ nodesNT (prepareRadialData
              ([⟨lorealName, "", "", "", "", "", ""⟩,
                ⟨"Lancôme", "Cosmetics", "", "", "", lorealName, ""⟩,
                ⟨"KitKat", "Confectionery", "", "", "", "", ""⟩] : List Brand))
          ↔ ∃ b2 ∈ ([⟨lorealName, "", "", "", "", "", ""⟩,
              ⟨"Lancôme", "Cosmetics", "", "", "", lorealName, ""⟩,
              ⟨"KitKat", "Confectionery", "", "", "", "", ""⟩] : List Brand),
            b2.name ≠ lorealName ∧ b2.parent_brand = lorealName
              ∧ b2.category ∈ lorealCats)) :=
  ⟨by decide,
    (nesting _ ⟨"Lancôme", "Cosmetics", "", "", "", lorealName, ""⟩).1
      (by decide) (by decide) (by decide) (by decide) (by decide),
    (nesting _ ⟨"KitKat", "Confectionery", "", "", "", "", ""⟩).2.1
      (by decide) (by decide) (by decide) (by decide),
    (nesting ([⟨lorealName, "", "", "", "", "", ""⟩,
        ⟨"Lancôme", "Cosmetics", "", "", "", lorealName, ""⟩,
        ⟨"KitKat", "Confectionery", "", "", "", "", ""⟩] : List Brand)
      ⟨"KitKat", "Confectionery", "", "", "", "", ""⟩).2.2 (by decide)⟩

theorem contains_iff_mem (l : List String) (a : String) : l.contains a = true ↔ a ∈ l := by
  simp [List.contains, List.elem_iff]

theorem mem_brandsOfNT (l : List (String × String)) (nm : String) :
    nm ∈ brandsOfNT l ↔ (nm, "brand") ∈ l := by
  unfold brandsOfNT
  constructor
  · intro h
    rcases List.mem_map.mp h with ⟨p, hp, rfl⟩
    have h2 := List.mem_filter.mp hp
    have h3 : p.2 = "brand" := eq_of_beq h2.2
    have h4 : p = (p.1, "brand") := by
      obtain ⟨a, b⟩ := p
      simp only at h3
      rw [h3]
    rw [← h4]
    exact h2.1
  · intro h
    exact List.mem_map_of_mem _ (List.mem_filter.mpr ⟨h, rfl⟩)

theorem acceptedRecords_subset (bs : List Brand) : ∀ b ∈ acceptedRecords bs, b ∈ bs := by
  intro b hb
  unfold acceptedRecords at hb
  split at hb
  · exact (List.mem_filter.mp hb).1
  · exact hb

theorem accepted_name_ne_loreal (bs : List Brand) (b : Brand)
    (hb : b ∈ acceptedRecords bs) : b.name ≠ lorealName := by
  unfold acceptedRecords at hb
  by_cases hE : (entityRecord bs).isSome = true
  · rw [if_pos hE] at hb
    exact bne_iff_ne.mp (Bool.and_eq_true _ _ |>.mp (List.mem_filter.mp hb).2).1
  · rw [if_neg hE] at hb
    have hnone : entityRecord bs = none := Option.not_isSome_iff_eq_none.mp hE
    unfold entityRecord at hnone
    have h2 := List.find?_eq_none.mp hnone b hb
    simpa using h2

theorem prepareCore_none (bs : List Brand) (hv : entityRecord bs = none) :
    prepareCore bs = RTree.mk "Nestlé" "root"
      (catNodes (bs.filter (fun b => b.parent_brand != lorealName)
        ++ bs.filter (fun b => b.parent_brand == lorealName))) := by
  unfold prepareCore
  rw [hv]

theorem brand_node_names (bs : List Brand) (nm : String) :
    (nm, "brand") ∈ nodesNT (prepareRadialData bs)
      ↔ nm ∈ (acceptedRecords bs).map (·.name) := by
  rw [← mem_brandsOfNT]
  have hp : List.Perm (brandsOfNT (nodesNT (prepareRadialData bs)))
      ((acceptedRecords bs).map (·.name)) := by
    refine List.Perm.trans ?_ (brandLeafNames_core bs)
    unfold brandsOfNT
    exact ((nodesNT_sortDeep (prepareCore bs)).filter _).map _
  exact hp.mem_iff

theorem nodesNT_ty_classify (bs : List Brand) (p : String × String)
    (hp : p ∈ nodesNT (prepareRadialData bs)) :
    p.2 = "root" ∨ p.2 = "category" ∨ p.2 = "loreal_parent" ∨ p.2 = "brand" := by
  have hp2 : p ∈ nodesNT (prepareCore bs) := (nodesNT_sortDeep _).mem_iff.mp hp
  cases hf : entityRecord bs with
  | none =>
    rw [prepareCore_none bs hf, nodesNT_mk] at hp2
    rcases List.mem_cons.mp hp2 with rfl | hp2
    · exact Or.inl rfl
    · rcases mem_nodesNTL_catNodes _ _ hp2 with ⟨k, rfl⟩ | ⟨b2, _, rfl⟩
      · exact Or.inr (Or.inl rfl)
      · exact Or.inr (Or.inr (Or.inr rfl))
  | some v =>
    rw [prepareCore_some bs v hf, nodesNT_mk] at hp2
    rcases List.mem_cons.mp hp2 with rfl | hp2
    · exact Or.inl rfl
    · rw [nodesNTL_append] at hp2
      rcases List.mem_append.mp hp2 with hp2 | hp2
      · by_cases hE : (lorealSubNodes (bs.filter
            (fun x => x.name != lorealName && x.parent_brand == lorealName))).isEmpty = true
        · rw [if_pos hE] at hp2
          simp [nodesNTL] at hp2
        · rw [if_neg hE] at hp2
          have h1 : nodesNTL [RTree.mk lorealName "loreal_parent" (lorealSubNodes (bs.filter
                (fun x => x.name != lorealName && x.parent_brand == lorealName)))]
              = nodesNT (RTree.mk lorealName "loreal_parent" (lorealSubNodes (bs.filter
                (fun x => x.name != lorealName && x.parent_brand == lorealName)))) := by
            simp [nodesNTL]
          rw [h1, nodesNT_mk] at hp2
          rcases List.mem_cons.mp hp2 with rfl | hp2
          · exact Or.inr (Or.inr (Or.inl rfl))
          · rcases mem_nodesNTL_lorealSub _ _ hp2 with ⟨k, rfl⟩ | ⟨b2, _, rfl⟩
            · exact Or.inr (Or.inl rfl)
            · exact Or.inr (Or.inr (Or.inr rfl))
      · rcases mem_nodesNTL_catNodes _ _ hp2 with ⟨k, rfl⟩ | ⟨b2, _, rfl⟩
        · exact Or.inr (Or.inl rfl)
        · exact Or.inr (Or.inr (Or.inr rfl))

theorem mem_visContrib (r : Brand) (nm : String) :
    nm ∈ visContrib r ↔ r.name ≠ ""
      ∧ (nm = r.name ∨ (nm = r.parent_brand ∧ r.parent_brand ≠ "")
          ∨ (nm = r.category ∧ r.category ≠ "")) := by
  unfold visContrib
  by_cases h1 : r.name = ""
  · rw [if_pos h1]
    simp [h1]
  · rw [if_neg h1]
    by_cases h2 : r.parent_brand = ""
    · by_cases h3 : r.category = ""
      · rw [if_pos h2, if_pos h3]
        simp [h1, h2, h3]
      · rw [if_pos h2, if_neg h3]
        simp [h1, h2, h3]
    · by_cases h3 : r.category = ""
      · rw [if_neg h2, if_pos h3]
        simp [h1, h2, h3]
      · rw [if_neg h2, if_neg h3]
        simp [h1, h2, h3]

theorem mem_visibleNodeNames_iff (allB filtered : List Brand) (nm : String) :
    nm ∈ visibleNodeNames allB filtered ↔
      nm = "Nestlé"
      ∨ (∃ lp, allB.find? (fun b => b.name == lorealName) = some lp ∧ nm = lp.name)
      ∨ (∃ b ∈ allB, b.category = nm ∧ nm ≠ "")
      ∨ (∃ r ∈ filtered, nm ∈ visContrib r) := by
  constructor
  · intro h
    unfold visibleNodeNames at h
    rcases List.mem_append.mp h with h | h
    · rcases List.mem_append.mp h with h | h
      · rcases List.mem_append.mp h with h | h
        · exact Or.inl (List.mem_singleton.mp h)
        · refine Or.inr (Or.inl ?_)
          cases hfind : allB.find? (fun b => b.name == lorealName) with
          | none =>
            rw [hfind] at h
            exact absurd h (List.not_mem_nil _)
          | some lp =>
            rw [hfind] at h
            exact ⟨lp, rfl, List.mem_singleton.mp h⟩
      · refine Or.inr (Or.inr (Or.inl ?_))
        have h2 := List.mem_filter.mp h
        rcases List.mem_map.mp h2.1 with ⟨b, hb, rfl⟩
        exact ⟨b, hb, rfl, bne_iff_ne.mp h2.2⟩
    · refine Or.inr (Or.inr (Or.inr ?_))
      rcases List.mem_flatten.mp h with ⟨l, hl, hmem⟩
      rcases List.mem_map.mp hl with ⟨r, hr, rfl⟩
      exact ⟨r, hr, hmem⟩
  · intro h
    unfold visibleNodeNames
    rcases h with rfl | ⟨lp, hlp, rfl⟩ | ⟨b, hb, hbc, hne⟩ | ⟨r, hr, hmem⟩
    · exact List.mem_append_left _
        (List.mem_append_left _ (List.mem_append_left _ (List.mem_singleton_self _)))
    · refine List.mem_append_left _
        (List.mem_append_left _ (List.mem_append_right _ ?_))
      rw [hlp]
      exact List.mem_singleton_self _
    · refine List.mem_append_left _ (List.mem_append_right _ ?_)
      have hmap : nm ∈ allB.map (·.category) := by
        rw [← hbc]
        exact List.mem_map_of_mem _ hb
      exact List.mem_filter.mpr ⟨hmap, bne_iff_ne.mpr hne⟩
    · refine List.mem_append_right _ ?_
      exact List.mem_flatten.mpr ⟨_, List.mem_map_of_mem _ hr, hmem⟩

theorem vis_contains_fresh (bs : List Brand) (fs : FilterState) (nm : String)
    (h1 : ∀ b ∈ bs, b.name ≠ "")
    (hroot : nm ≠ "Nestlé") (hlor : nm ≠ lorealName)
    (hcat : ∀ b2 ∈ bs, nm ≠ b2.category)
    (hpar : ∀ b2 ∈ bs, nm = b2.parent_brand → nm = lorealName) :
    ((visibleNodeNames bs (filterBrands bs fs)).contains nm = true
      ↔ ∃ r ∈ filterBrands bs fs, r.name = nm) := by
  rw [contains_iff_mem, mem_visibleNodeNames_iff]
  constructor
  · rintro (rfl | ⟨lp, hlp, rfl⟩ | ⟨b2, hb2, hbc, hne⟩ | ⟨r, hr, hmemv⟩)
    · exact absurd rfl hroot
    · have hfp := List.find?_some hlp
      exact absurd (eq_of_beq hfp) hlor
    · exact absurd hbc.symm (hcat b2 hb2)
    · have hrbs : r ∈ bs := (List.mem_filter.mp hr).1
      rcases (mem_visContrib r nm).mp hmemv with ⟨hrname, hn | ⟨hn, hpne⟩ | ⟨hn, hcne⟩⟩
      · exact ⟨r, hr, hn.symm⟩
      · exact absurd (hpar r hrbs hn) hlor
      · exact absurd hn (hcat r hrbs)
  · rintro ⟨r, hr, hrn⟩
    refine Or.inr (Or.inr (Or.inr ⟨r, hr, (mem_visContrib r nm).mpr
      ⟨h1 r (List.mem_filter.mp hr).1, Or.inl hrn.symm⟩⟩))

/-- C3 (amended): provided the record names are nonempty and distinct from
the root name and from every category and parent_brand value other than
the entity name, filtering dims exactly the brand leaves no filtered
record is named after: a node of the built tree is not dimmed if and only
if it is a root, category or entity node, or a brand leaf whose name is
the name of some record kept by the filter.  Without those freshness
assumptions brand leaves can escape dimming by name collision. -/
theorem visible_set (bs : List Brand) (fs : FilterState)
    (h1 : ∀ b ∈ bs, b.name ≠ "")
    (h3 : ∀ b ∈ bs, b.name ≠ "Nestlé")
    (h5 : ∀ b ∈ bs, ∀ b2 ∈ bs, b.name ≠ b2.category)
    (h6 : ∀ b ∈ bs, ∀ b2 ∈ bs, b.name = b2.parent_brand → b.name = lorealName) :
    ∀ nm ty, (nm, ty) ∈ nodesNT (prepareRadialData bs) →
      (nodeShown bs fs nm ty = true ↔
        (ty ≠ "brand" ∨ ∃ r ∈ filterBrands bs fs, r.name = nm)) := by
  intro nm ty hmem
  rcases nodesNT_ty_classify bs (nm, ty) hmem with hty | hty | hty | hty
  · have hty2 : ty = "root" := hty
    subst hty2
    exact ⟨fun _ => Or.inl (by decide), fun _ => by simp [nodeShown, nodeShownNT]⟩
  · have hty2 : ty = "category" := hty
    subst hty2
    exact ⟨fun _ => Or.inl (by decide), fun _ => by simp [nodeShown, nodeShownNT]⟩
  · have hty2 : ty = "loreal_parent" := hty
    subst hty2
    exact ⟨fun _ => Or.inl (by decide), fun _ => by simp [nodeShown, nodeShownNT]⟩
  · have hty2 : ty = "brand" := hty
    subst hty2
    have hacc : nm ∈ (acceptedRecords bs).map (·.name) := (brand_node_names bs nm).mp hmem
    rcases List.mem_map.mp hacc with ⟨r0, hr0, hr0n⟩
    subst hr0n
    have hr0bs : r0 ∈ bs := acceptedRecords_subset bs r0 hr0
    have hlor : r0.name ≠ lorealName := accepted_name_ne_loreal bs r0 hr0
    have hshape : nodeShown bs fs r0.name "brand"
        = (visibleNodeNames bs (filterBrands bs fs)).contains r0.name := by
      simp [nodeShown, nodeShownNT]
    rw [hshape, vis_contains_fresh bs fs r0.name h1 (h3 r0 hr0bs) hlor
      (fun b2 hb2 => h5 r0 hr0bs b2 hb2) (fun b2 hb2 => h6 r0 hr0bs b2 hb2)]
    constructor
    · exact fun h => Or.inr h
    · rintro (hne | h)
      · exact absurd rfl hne
      · exact h

theorem visible_set_witness :
    ((∀ b ∈ ([⟨"KitKat", "Confectionery", "", "", "", "", ""⟩] : List Brand), b.name ≠ "")
      ∧ (∀ b ∈ ([⟨"KitKat", "Confectionery", "", "", "", "", ""⟩] : List Brand),
          b.name ≠ "Nestlé")
      ∧ (∀ b ∈ ([⟨"KitKat", "Confectionery", "", "", "", "", ""⟩] : List Brand),
          ∀ b2 ∈ ([⟨"KitKat", "Confectionery", "", "", "", "", ""⟩] : List Brand),
          b.name ≠ b2.category)
      ∧ (nodeShown [⟨"KitKat", "Confectionery", "", "", "", "", ""⟩] ⟨"", "all"⟩
            "KitKat" "brand" = true ↔
          ("brand" ≠ "brand"
            ∨ ∃ r ∈ filterBrands [⟨"KitKat", "Confectionery", "", "", "", "", ""⟩] ⟨"", "all"⟩,
              r.name = "KitKat"))) :=
  ⟨by decide, by decide, by decide,
    visible_set [⟨"KitKat", "Confectionery", "", "", "", "", ""⟩] ⟨"", "all"⟩
      (by decide) (by decide) (by decide) (by decide) "KitKat" "brand"
      (by
        have h : nodesNT (prepareRadialData [⟨"KitKat", "Confectionery", "", "", "", "", ""⟩])
            = [("Nestlé", "root"), ("Confectionery", "category"), ("KitKat", "brand")] := rfl
        rw [h]
        simp)⟩

/-- C10 (amended): visibility is keyed by the pair (name, nodeType), not by
name alone: a node is not dimmed exactly when its nodeType is root,
category or loreal_parent, or its name is in the visible-name set; hence a
brand node is never dimmed when its name equals the root name, a truthy
category value of any record, or a filtered record's name or truthy
parent_brand or category value — but two nodes with equal names and
different nodeTypes can receive different visibility. -/
theorem name_keyed (bs : List Brand) (fs : FilterState) (nm : String) :
    (∀ ty, nodeShown bs fs nm ty = true ↔
        (ty = "root" ∨ ty = "category" ∨ ty = "loreal_parent"
          ∨ nm ∈ visibleNodeNames bs (filterBrands bs fs)))
      ∧ (nm = "Nestlé" → nodeShown bs fs nm "brand" = true)
      ∧ (∀ b ∈ bs, b.category = nm → nm ≠ "" → nodeShown bs fs nm "brand" = true)
      ∧ (∀ r ∈ filterBrands bs fs, r.name ≠ "" →
          (nm = r.name ∨ (nm = r.parent_brand ∧ nm ≠ "") ∨ (nm = r.category ∧ nm ≠ "")) →
          nodeShown bs fs nm "brand" = true) := by
  have hb : nodeShown bs fs nm "brand" = true
      ↔ nm ∈ visibleNodeNames bs (filterBrands bs fs) := by
    simp [nodeShown, nodeShownNT, List.contains, List.elem_iff]
  refine ⟨?_, ?_, ?_, ?_⟩
  · intro ty
    by_cases t1 : ty = "root"
    · simp [nodeShown, nodeShownNT, t1]
    · by_cases t2 : ty = "category"
      · simp [nodeShown, nodeShownNT, t2]
      · by_cases t3 : ty = "loreal_parent"
        · simp [nodeShown, nodeShownNT, t3]
        · simp [nodeShown, nodeShownNT, t1, t2, t3, List.contains, List.elem_iff]
  · intro hroot
    exact hb.mpr ((mem_visibleNodeNames_iff bs _ nm).mpr (Or.inl hroot))
  · intro b hbm hbc hne
    exact hb.mpr ((mem_visibleNodeNames_iff bs _ nm).mpr
      (Or.inr (Or.inr (Or.inl ⟨b, hbm, hbc, hne⟩))))
  · intro r hr hrname hdis
    refine hb.mpr ((mem_visibleNodeNames_iff bs _ nm).mpr
      (Or.inr (Or.inr (Or.inr ⟨r, hr, (mem_visContrib r nm).mpr ⟨hrname, ?_⟩⟩))))
    rcases hdis with hn | ⟨hn, hne⟩ | ⟨hn, hne⟩
    · exact Or.inl hn
    · exact Or.inr (Or.inl ⟨hn, by rw [← hn]; exact hne⟩)
    · exact Or.inr (Or.inr ⟨hn, by rw [← hn]; exact hne⟩)

theorem name_keyed_witness :
    ((⟨"X", "Water", "US", "", "", "", ""⟩ : Brand)
        ∈ ([⟨"Water", "Coffee", "EU", "", "", "", ""⟩,
            ⟨"X", "Water", "US", "", "", "", ""⟩] : List Brand)
      ∧ (⟨"X", "Water", "US", "", "", "", ""⟩ : Brand).category = "Water"
      ∧ ("Water" : String) ≠ ""
      ∧ nodeShown [⟨"Water", "Coffee", "EU", "", "", "", ""⟩,
          ⟨"X", "Water", "US", "", "", "", ""⟩] ⟨"", "US"⟩ "Water" "brand" = true) :=
  ⟨by decide, by decide, by decide,
    (name_keyed [⟨"Water", "Coffee", "EU", "", "", "", ""⟩,
        ⟨"X", "Water", "US", "", "", "", ""⟩] ⟨"", "US"⟩ "Water").2.2.1
      ⟨"X", "Water", "US", "", "", "", ""⟩ (by decide) (by decide) (by decide)⟩

end BrandMap
